import Mathlib

/-!
# manny-shell: a verification development

A shallow embedding of the command execution engine of the shell
(`parse.c`, `shell.c`) together with theorems about its tokenizer, redirection
rewriter, pipeline splitter and executor, background job accounting, path
resolver and top-level loop.

Conventions of the embedding.

* A C string is the list of its characters before the terminating NUL.
* A `char *` cell is an `Option CStr`, `none` being `NULL`.
* A `char **` array is the list of its allocated cells.  Reading a cell that
  lies outside the allocation, or a cell that was never written, yields a value
  the program does not control: it is taken from the parameter `junk`.  Writing
  outside the allocation is a fault.
* A C function that may terminate the process, dereference `NULL` or loop is
  embedded as a function into `Run`; loops carry an explicit iteration budget.
* The kernel (descriptor table, files with their permission bits and owners,
  pipes, the file mode creation mask and the identity of the process) is an
  explicit state; the answers of `fork`, `wait` and `waitpid`, of the
  allocator, of `access` and of `execv` are inputs of the embedding.
* A `size_t` index that the program decrements is computed modulo `2 ^ 64`.
  An `int` or `size_t` counter that only counts the cells of an array in
  memory is a plain natural number.
* The constant `PATH_MAX` (1024 or 4096 in the source, by platform) is a
  parameter.
-/

namespace MannyShell

/-! ## Basic types -/

/-- A C string: its characters, without the terminating NUL. -/
abbrev CStr := List Char

/-- A `char *` cell: `none` is `NULL`. -/
abbrev Cell := Option CStr

/-- The allocated cells of a `char **` array. -/
abbrev Cells := List Cell

/-- How a call of a C function ends. -/
inductive Run (α : Type) where
  /-- The function returned to its caller. -/
  | ret (a : α)
  /-- The process called `exit` with this status. -/
  | exit (status : Nat)
  /-- An invalid access: `NULL` dereference or a write outside an allocation. -/
  | fault
  /-- The iteration budget of the embedding ran out. -/
  | timeout
  deriving DecidableEq, Repr

/-- Sequencing of calls. -/
def Run.bind {α β : Type} (r : Run α) (f : α → Run β) : Run β :=
  match r with
  | .ret a => f a
  | .exit s => .exit s
  | .fault => .fault
  | .timeout => .timeout

/-- Apply a function to the returned value. -/
def Run.map {α β : Type} (f : α → β) (r : Run α) : Run β :=
  r.bind (fun a => .ret (f a))

/-- The constant `EXIT_FAILURE` of `stdlib.h`. -/
def EXIT_FAILURE : Nat := 1

/-- Read of cell `i`: inside the allocation the stored value, outside it an
uncontrolled value. -/
def load {α : Type} (junk : Nat → α) (a : List α) (i : Nat) : α :=
  if h : i < a.length then a[i] else junk i

/-- Write of cell `i`: `none` when the cell lies outside the allocation. -/
def store {α : Type} (a : List α) (i : Nat) (v : α) : Option (List α) :=
  if i < a.length then some (a.set i v) else none

/-- The tokens of a vector: the cells before the first `NULL`. -/
def tokensOf : Cells → List CStr
  | [] => []
  | none :: _ => []
  | some t :: rest => t :: tokensOf rest

/-- A sentinel-terminated vector holding exactly the tokens `ts`: cells
`0 .. ts.length - 1` hold the tokens, cell `ts.length` holds `NULL`, and any
further cells are arbitrary. -/
def IsVec (a : Cells) (ts : List CStr) : Prop :=
  ∃ post : Cells, a = ts.map some ++ none :: post

/-- The cells of a vector holding the tokens `ts`, the sentinel, and then the cells `post`. -/
def vec (ts : List CStr) (post : Cells) : Cells :=
  ts.map some ++ none :: post

/-! ## parse.c -/

/-- The libc function `strspn`: length of the initial segment made of accepted characters. -/
def strspn (s accept : CStr) : Nat :=
  (s.takeWhile (fun c => decide (c ∈ accept))).length

/-- The libc function `strcspn`: length of the initial segment free of rejected characters. -/
def strcspn (s reject : CStr) : Nat :=
  (s.takeWhile (fun c => !decide (c ∈ reject))).length

/-- The libc function `strtok` on the string that starts at the scan pointer `s`
(the argument on the first call, the saved pointer afterwards).  Returns the
token (`none` is `NULL`) and the new saved pointer. -/
def strtok (s delim : CStr) : Option CStr × CStr :=
  let s1 := s.drop (strspn s delim)
  if s1 = [] then (none, s1)
  else
    let n := strcspn s1 delim
    (some (s1.take n), (s1.drop n).drop 1)

/-- The libc function `realloc` on a cell array: the first cells are kept,
added cells hold uncontrolled values. -/
def realloc (junk : Nat → Cell) (a : Cells) (size : Nat) : Cells :=
  a.take size ++ (List.range (size - a.length)).map (fun k => junk (a.length + k))

/-- The `while (token != NULL)` loop of `parse`.  `alloc k` tells whether the
`k`-th allocation request of the call succeeds. -/
def parseLoop (junk : Nat → Cell) (alloc : Nat → Bool) (delim : CStr) :
    Nat → Cells → Nat → Option CStr → CStr → Run (Option Cells)
  | 0, _, _, _, _ => .timeout
  | fuel + 1, array, n, token, save =>
    match token with
    | none => .ret (some array)
    | some tok =>
      if alloc (n + 1) = false then .ret none
      else
        let temp := realloc junk array (n + 2)
        match store temp n (some tok) with
        | none => .fault
        | some a1 =>
          match store a1 (n + 1) none with
          | none => .fault
          | some a2 =>
            let r := strtok save delim
            parseLoop junk alloc delim fuel a2 (n + 1) r.1 r.2

/-- The function `parse` of `parse.c`.  `ret none` is the `NULL` return. -/
def parse (junk : Nat → Cell) (alloc : Nat → Bool) (line delim : CStr) : Run (Option Cells) :=
  if alloc 0 = false then .ret none
  else
    let r := strtok line delim
    parseLoop junk alloc delim (line.length + 1) [none] 0 r.1 r.2

/-- The function `parseLine` of `shell.c`: cut the line at the first newline, then tokenize
on spaces. -/
def parseLine (junk : Nat → Cell) (alloc : Nat → Bool) (line : CStr) : Run (Option Cells) :=
  parse junk alloc (line.take (strcspn line ['\n'])) [' ']

/-- Spec side of the tokenizer: the maximal non-empty runs of non-delimiter
characters of the line, left to right. -/
def tokenRuns (delim line : CStr) : List CStr :=
  (line.splitOnP (fun c => decide (c ∈ delim))).filter (fun t => decide (t ≠ []))

/-- Spec side: a line made of the token `t0` and then, for each `(k, t)` of `rest`,
`k + 1` spaces followed by the token `t`. -/
def spacedLine (t0 : CStr) (rest : List (Nat × CStr)) : CStr :=
  t0 ++ (rest.map (fun p => List.replicate (p.1 + 1) ' ' ++ p.2)).flatten

/-! ## The kernel as seen by one process -/

/-- A regular file: contents, permission bits, owner and group. -/
structure File where
  data : List Char
  mode : Nat
  uid : Nat
  gid : Nat
  deriving DecidableEq, Repr

/-- What an open descriptor refers to. -/
inductive Obj where
  /-- The terminal the shell was started on. -/
  | tty
  /-- A regular file, opened with the given flags. -/
  | file (path : CStr) (flags : Nat)
  /-- The read end of pipe `k`. -/
  | pipeRd (k : Nat)
  /-- The write end of pipe `k`. -/
  | pipeWr (k : Nat)
  deriving DecidableEq, Repr

/-- The kernel state one process works on: the file system, the descriptor
table of the process (its length is the limit on open descriptors), the
number of pipes created so far, the file mode creation mask of the process,
its effective user and group and its supplementary groups. -/
structure Proc where
  files : List (CStr × File)
  fds : List (Option Obj)
  pipes : Nat
  umask : Nat
  uid : Nat
  gid : Nat
  groups : List Nat
  deriving DecidableEq, Repr

/-- The constant `O_RDONLY` of `fcntl.h`. -/
def O_RDONLY : Nat := 0
/-- The constant `O_WRONLY` of `fcntl.h`. -/
def O_WRONLY : Nat := 1
/-- The constant `O_CREAT` of `fcntl.h` (octal 100). -/
def O_CREAT : Nat := 64
/-- The constant `O_TRUNC` of `fcntl.h` (octal 1000). -/
def O_TRUNC : Nat := 512
/-- The constant `STDIN_FILENO` of `unistd.h`. -/
def STDIN_FILENO : Nat := 0
/-- The constant `STDOUT_FILENO` of `unistd.h`. -/
def STDOUT_FILENO : Nat := 1

/-- Whether all bits of `flag` are set in `flags`. -/
def hasFlag (flags flag : Nat) : Bool := flags &&& flag == flag

/-- Whether the access mode of `flags` allows writing. -/
def opensForWrite (flags : Nat) : Bool := flags % 4 != O_RDONLY

/-- Whether the access mode of `flags` allows reading. -/
def opensForRead (flags : Nat) : Bool := flags % 4 != O_WRONLY

/-- The permission bits a created file receives: those of `mode` that the
file mode creation mask does not clear (`mode & ~umask`). -/
def createMode (mode umask : Nat) : Nat := mode ^^^ (mode &&& umask)

/-- The permission class (read 4, write 2, execute 1) of file `f` that
applies to the process: the owner class when the process owns the file, else
the group class when the file's group is one of the process, else the class of
all others. -/
def classBits (p : Proc) (f : File) : Nat :=
  if f.uid = p.uid then f.mode / 64 % 8
  else if f.gid = p.gid ∨ f.gid ∈ p.groups then f.mode / 8 % 8
  else f.mode % 8

/-- Whether the process may open the existing file `f` with the access mode of
`flags`: the superuser always may; anyone else needs the read bit of the
applicable class for reading and its write bit for writing. -/
def mayOpen (p : Proc) (f : File) (flags : Nat) : Bool :=
  p.uid == 0 ||
    ((!opensForRead flags || classBits p f / 4 % 2 == 1) &&
     (!opensForWrite flags || classBits p f / 2 % 2 == 1))

/-- The file stored under `path`. -/
def lookupFile (files : List (CStr × File)) (path : CStr) : Option File :=
  (files.find? (fun e => e.1 == path)).map Prod.snd

/-- Replace the file stored under `path`, or add it when absent. -/
def putFile (files : List (CStr × File)) (path : CStr) (f : File) : List (CStr × File) :=
  match files with
  | [] => [(path, f)]
  | e :: rest => if e.1 == path then (path, f) :: rest else e :: putFile rest path f

/-- The lowest descriptor that is not open. -/
def lowestFree (fds : List (Option Obj)) : Option Nat :=
  let i := fds.findIdx (fun o => o.isNone)
  if i < fds.length then some i else none

/-- The system call `open(path, flags, mode)`.  It fails (`none`, the `-1`
return) when no descriptor is free, when the file is absent and `O_CREAT` is
not given, or when the file exists and its permission bits deny the requested
access to the process.  An absent file is created empty under `O_CREAT`,
owned by the process, with the permission bits of `mode` that the file mode
creation mask leaves; an existing file is emptied when `O_TRUNC` is given and
the access mode allows writing, and is left as it is otherwise.  Directories
are not part of the state: every path names a regular file in a directory the
process may search and write. -/
def sysOpen (p : Proc) (path : CStr) (flags mode : Nat) : Option (Nat × Proc) :=
  match lowestFree p.fds with
  | none => none
  | some fd =>
    match lookupFile p.files path with
    | none =>
      if hasFlag flags O_CREAT then
        let files := putFile p.files path ⟨[], createMode mode p.umask, p.uid, p.gid⟩
        let fds := p.fds.set fd (some (Obj.file path flags))
        some (fd, { p with files := files, fds := fds })
      else none
    | some f =>
      if mayOpen p f flags then
        let files := if hasFlag flags O_TRUNC && opensForWrite flags
                     then putFile p.files path { f with data := [] } else p.files
        some (fd, { p with files := files, fds := p.fds.set fd (some (Obj.file path flags)) })
      else none

/-- What descriptor `fd` refers to, `none` when it is not open. -/
def fdGet (p : Proc) (fd : Nat) : Option Obj :=
  if h : fd < p.fds.length then p.fds[fd] else none

/-- The system call `dup2(oldfd, newfd)`: `none` is the `-1` return. -/
def sysDup2 (p : Proc) (oldfd newfd : Nat) : Option Proc :=
  match fdGet p oldfd with
  | none => none
  | some o => if newfd < p.fds.length then some { p with fds := p.fds.set newfd (some o) } else none

/-- The system call `close(fd)`; closing a descriptor that is not open changes nothing. -/
def sysClose (p : Proc) (fd : Nat) : Proc :=
  { p with fds := p.fds.set fd none }

/-- The system call `pipe(fds)`: a new pipe on the two lowest free
descriptors, read end first.  `none` is the `-1` return. -/
def sysPipe (p : Proc) : Option (Nat × Nat × Proc) :=
  match lowestFree p.fds with
  | none => none
  | some r =>
    match lowestFree (p.fds.set r (some (Obj.pipeRd p.pipes))) with
    | none => none
    | some w =>
      let fds := (p.fds.set r (some (Obj.pipeRd p.pipes))).set w (some (Obj.pipeWr p.pipes))
      some (r, w, { p with fds := fds, pipes := p.pipes + 1 })

/-! ## shell.c: redirection -/

/-- The token `<`. -/
def tokIn : CStr := ['<']
/-- The token `>`. -/
def tokOut : CStr := ['>']
/-- The token `|`. -/
def tokPipe : CStr := ['|']
/-- The token `&`. -/
def tokAmp : CStr := ['&']

/-- Number of values of `size_t` (64-bit target). -/
def SIZE_MOD : Nat := 2 ^ 64

/-- The function `setNewIn` of `shell.c`. -/
def setNewIn (p : Proc) (path : CStr) : Run Proc :=
  match sysOpen p path O_RDONLY 0 with
  | none => .exit EXIT_FAILURE
  | some (newin, p1) =>
    match sysDup2 p1 newin STDIN_FILENO with
    | none => .exit EXIT_FAILURE
    | some p2 => .ret (sysClose p2 newin)

/-- The function `setNewOut` of `shell.c`. -/
def setNewOut (p : Proc) (path : CStr) : Run Proc :=
  match sysOpen p path (O_CREAT ||| O_WRONLY) 0o644 with
  | none => .exit EXIT_FAILURE
  | some (newout, p1) =>
    match sysDup2 p1 newout STDOUT_FILENO with
    | none => .exit EXIT_FAILURE
    | some p2 => .ret (sysClose p2 newout)

/-- The `while` loop of `resizeArgv`. -/
def resizeArgvLoop (junk : Nat → Cell) : Nat → Cells → Nat → Run Cells
  | 0, _, _ => .timeout
  | fuel + 1, argv, index =>
    match load junk argv index with
    | none => .ret argv
    | some _ =>
      match store argv index (load junk argv (index + 2)) with
      | none => .fault
      | some argv1 => resizeArgvLoop junk fuel argv1 (index + 1)

/-- The function `resizeArgv` of `shell.c`. -/
def resizeArgv (junk : Nat → Cell) (argv : Cells) (index : Nat) : Run Cells :=
  resizeArgvLoop junk (argv.length + 1) argv index

/-- One `if` statement of the loop body of `redirect`: when `argv[i]` is the
marker and `argv[i+1]` is not `NULL`, rebind the stream to `argv[i+1]`, compact
the vector at `i` and decrement `i` (a `size_t`).  Returns the vector, `i` and
the process state after the statement. -/
def redirectIf (junk : Nat → Cell) (marker : CStr) (rebind : Proc → CStr → Run Proc)
    (argv : Cells) (i : Nat) (p : Proc) : Run (Cells × Nat × Proc) :=
  match load junk argv i with
  | none => .fault
  | some t =>
    if t = marker then
      match load junk argv ((i + 1) % SIZE_MOD) with
      | none => .ret (argv, i, p)
      | some path =>
        (rebind p path).bind fun p1 =>
        (resizeArgv junk argv i).bind fun argv1 =>
        .ret (argv1, (i + (SIZE_MOD - 1)) % SIZE_MOD, p1)
    else .ret (argv, i, p)

/-- The `for` loop of `redirect`. -/
def redirectLoop (junk : Nat → Cell) : Nat → Cells → Nat → Proc → Run (Cells × Proc)
  | 0, _, _, _ => .timeout
  | fuel + 1, argv, i, p =>
    match load junk argv i with
    | none => .ret (argv, p)
    | some _ =>
      (redirectIf junk tokIn setNewIn argv i p).bind fun s1 =>
      (redirectIf junk tokOut setNewOut s1.1 s1.2.1 s1.2.2).bind fun s2 =>
      redirectLoop junk fuel s2.1 ((s2.2.1 + 1) % SIZE_MOD) s2.2.2

/-- The function `redirect` of `shell.c`: the vector and the process state when it returns. -/
def redirect (junk : Nat → Cell) (argv : Cells) (p : Proc) : Run (Cells × Proc) :=
  redirectLoop junk (2 * argv.length + 1) argv 1 p

/-- A redirection request: the stream and the file name. -/
inductive Redir where
  | input (path : CStr)
  | output (path : CStr)
  deriving DecidableEq, Repr

/-- Spec side: the redirection pairs of the tokens that follow the command
name, found left to right: a `<` or `>` token immediately followed by a token. -/
def redirPairs : List CStr → List Redir
  | [] => []
  | [_] => []
  | t :: f :: rest =>
    if t = tokIn then Redir.input f :: redirPairs rest
    else if t = tokOut then Redir.output f :: redirPairs rest
    else redirPairs (f :: rest)

/-- Spec side: the tokens that follow the command name with every redirection pair removed. -/
def stripRedirs : List CStr → List CStr
  | [] => []
  | [t] => [t]
  | t :: f :: rest =>
    if t = tokIn ∨ t = tokOut then stripRedirs rest
    else t :: stripRedirs (f :: rest)

/-- Spec side: perform the rebindings one after the other. -/
def applyRedirs : List Redir → Proc → Run Proc
  | [], p => .ret p
  | Redir.input f :: rest, p => (setNewIn p f).bind (applyRedirs rest)
  | Redir.output f :: rest, p => (setNewOut p f).bind (applyRedirs rest)

/-- Spec side: the file name of the last output redirection. -/
def lastOutput : List Redir → Option CStr
  | [] => none
  | Redir.input _ :: rest => lastOutput rest
  | Redir.output f :: rest => (lastOutput rest).orElse (fun _ => some f)

/-! ## shell.c: path resolution and launch -/

/-- The libc call `snprintf(buf, size, "%s", s)`: at most `size - 1` characters are kept. -/
def snprintf (size : Nat) (s : CStr) : CStr := s.take (size - 1)

/-- The `for` loop of `resolvePath`.  `access path` tells whether
`access(path, X_OK)` returns 0. -/
def resolveLoop (junk : Nat → Cell) (PATH_MAX : Nat) (access : CStr → Bool) (PATH_arr : Cells)
    (command : CStr) : Nat → Nat → Run (Option CStr)
  | 0, _ => .timeout
  | fuel + 1, i =>
    match load junk PATH_arr i with
    | none => .ret none
    | some dir =>
      let path := snprintf PATH_MAX (dir ++ '/' :: command)
      if access path then .ret (some path)
      else resolveLoop junk PATH_MAX access PATH_arr command fuel (i + 1)

/-- The function `resolvePath` of `shell.c`; `PATH_arr` is the global search list.
`ret none` is the `NULL` return. -/
def resolvePath (junk : Nat → Cell) (PATH_MAX : Nat) (access : CStr → Bool) (PATH_arr : Cells)
    (command : Cell) : Run (Option CStr) :=
  match command with
  | none => .fault
  | some cmd =>
    if '/' ∈ cmd then .ret (some cmd)
    else resolveLoop junk PATH_MAX access PATH_arr cmd (PATH_arr.length + 1) 0

/-- How a call of `execCommand` ends: it never returns. -/
inductive Launch where
  /-- The call of `execv` replaced the process image: program path, vector, process state. -/
  | image (path : CStr) (argv : Cells) (p : Proc)
  /-- The process called `exit` with this status. -/
  | exit (status : Nat)
  /-- An invalid access. -/
  | fault
  /-- The iteration budget of the embedding ran out. -/
  | timeout
  deriving DecidableEq, Repr

/-- The function `execCommand` of `shell.c`.  `execv path` tells whether
`execv` succeeds on `path`. -/
def execCommand (junk : Nat → Cell) (PATH_MAX : Nat) (access execv : CStr → Bool)
    (PATH_arr : Cells) (argv : Cells) (p : Proc) : Launch :=
  match resolvePath junk PATH_MAX access PATH_arr (load junk argv 0) with
  | .ret none => .exit EXIT_FAILURE
  | .ret (some path) =>
    match redirect junk argv p with
    | .ret (argv1, p1) => if execv path then .image path argv1 p1 else .exit EXIT_FAILURE
    | .exit s => .exit s
    | .fault => .fault
    | .timeout => .timeout
  | .exit s => .exit s
  | .fault => .fault
  | .timeout => .timeout

/-! ## shell.c: pipelines -/

/-- The `while` loop of `getNumArgs`. -/
def getNumArgsLoop (junk : Nat → Cell) (argv : Cells) : Nat → Nat → Run Nat
  | 0, _ => .timeout
  | fuel + 1, numArgs =>
    match load junk argv numArgs with
    | none => .ret numArgs
    | some _ => getNumArgsLoop junk argv fuel (numArgs + 1)

/-- The function `getNumArgs` of `shell.c`. -/
def getNumArgs (junk : Nat → Cell) (argv : Cells) : Run Nat :=
  getNumArgsLoop junk argv (argv.length + 1) 0

/-- The `for` loop of `hasPipe`. -/
def hasPipeLoop (junk : Nat → Cell) (argv : Cells) : Nat → Nat → Run Bool
  | 0, _ => .timeout
  | fuel + 1, i =>
    match load junk argv i with
    | none => .ret false
    | some t => if t = tokPipe then .ret true else hasPipeLoop junk argv fuel (i + 1)

/-- The function `hasPipe` of `shell.c`: the scan starts at index 1. -/
def hasPipe (junk : Nat → Cell) (argv : Cells) : Run Bool :=
  hasPipeLoop junk argv (argv.length + 1) 1

/-- The cells of a `char ***` array: each holds a pointer to a stage vector, or `NULL`. -/
abbrev Stages := List (Option Cells)

/-- The libc call `malloc(n * sizeof(char *))`: `n` cells with uncontrolled contents. -/
def mallocCells {α : Type} (junk : Nat → α) (n : Nat) : List α :=
  (List.range n).map junk

/-- The first `for` loop of `splitArgv`: count the stages. -/
def splitCount (junk : Nat → Cell) (argv : Cells) : Nat → Nat → Nat → Run Nat
  | 0, _, _ => .timeout
  | fuel + 1, i, numArgvs =>
    match load junk argv i with
    | none => .ret numArgvs
    | some t =>
      splitCount junk argv fuel (i + 1) (if t = tokPipe then numArgvs + 1 else numArgvs)

/-- The assignment `argvs[cmdIndex][argIndex] = v`. -/
def storeStage (junkS : Nat → Option Cells) (argvs : Stages) (cmdIndex argIndex : Nat)
    (v : Cell) : Run Stages :=
  match load junkS argvs cmdIndex with
  | none => .fault
  | some stage =>
    match store stage argIndex v with
    | none => .fault
    | some stage1 =>
      match store argvs cmdIndex (some stage1) with
      | none => .fault
      | some argvs1 => .ret argvs1

/-- The second `for` loop of `splitArgv` and the statements after it.
`alloc k` tells whether the `k`-th `malloc` of the call succeeds. -/
def splitLoop (junk : Nat → Cell) (junkS : Nat → Option Cells) (alloc : Nat → Bool)
    (PATH_MAX : Nat) (argv : Cells) : Nat → Nat → Stages → Nat → Nat → Run (Option Stages)
  | 0, _, _, _, _ => .timeout
  | fuel + 1, i, argvs, cmdIndex, argIndex =>
    match load junk argv i with
    | none =>
      (storeStage junkS argvs cmdIndex argIndex none).bind fun argvs1 =>
      match store argvs1 (cmdIndex + 1) none with
      | none => .fault
      | some argvs2 => .ret (some argvs2)
    | some t =>
      if t = tokPipe then
        (storeStage junkS argvs cmdIndex argIndex none).bind fun argvs1 =>
        if alloc (cmdIndex + 2) = false then .ret none
        else
          match store argvs1 (cmdIndex + 1) (some (mallocCells junk PATH_MAX)) with
          | none => .fault
          | some argvs2 =>
            splitLoop junk junkS alloc PATH_MAX argv fuel (i + 1) argvs2 (cmdIndex + 1) 0
      else
        (storeStage junkS argvs cmdIndex argIndex (some t)).bind fun argvs1 =>
        splitLoop junk junkS alloc PATH_MAX argv fuel (i + 1) argvs1 cmdIndex (argIndex + 1)

/-- The function `splitArgv` of `shell.c`.  `ret none` is the `NULL` return.
Each stage vector has `PATH_MAX` cells. -/
def splitArgv (junk : Nat → Cell) (junkS : Nat → Option Cells) (alloc : Nat → Bool)
    (PATH_MAX : Nat) (argv : Cells) : Run (Option Stages) :=
  (splitCount junk argv (argv.length + 1) 0 1).bind fun numArgvs =>
  if alloc 0 = false then .ret none
  else
    let argvs : Stages := mallocCells junkS (numArgvs + 1)
    if alloc 1 = false then .ret none
    else
      match store argvs 0 (some (mallocCells junk PATH_MAX)) with
      | none => .fault
      | some argvs1 =>
        splitLoop junk junkS alloc PATH_MAX argv (argv.length + 1) 0 argvs1 0 0

/-- The stage vectors of a stage list: the cells before the first `NULL`. -/
def stagesOf : Stages → List Cells
  | [] => []
  | none :: _ => []
  | some b :: rest => b :: stagesOf rest

/-- A system call on descriptors or children, as it appears in a trace. -/
inductive Sys where
  | pipe (r w : Nat)
  | fork (pid : Nat)
  | dup2 (oldfd newfd : Nat)
  | close (fd : Nat)
  | wait (pid : Option Nat)
  deriving DecidableEq, Repr

/-- A child of the shell that has been created and not yet reaped.  The flag
records whether the child was launched as a background job; the program keeps
no such record. -/
structure Kid where
  pid : Nat
  background : Bool
  deriving DecidableEq, Repr

/-- The process-wide state of the shell: the two globals `backgroundProcesses`
and `isWaiting`, the kernel state of the shell process, and its unreaped
children.  The counter is a `size_t`; it would take `2 ^ 64` live children to
wrap it, so it is a plain natural number here. -/
structure Shell where
  backgroundProcesses : Nat
  isWaiting : Bool
  proc : Proc
  kids : List Kid
  deriving DecidableEq, Repr

/-- The system calls `wait(NULL)` and `waitpid(-1, .., ..)` returning `pid`
(`none`: no child was reaped): the reaped child leaves the table. -/
def sysWait (kids : List Kid) (pid : Option Nat) : List Kid :=
  match pid with
  | none => kids
  | some r => kids.filter (fun k => k.pid != r)

/-- A child of `pipeCalled` at the moment it calls `execCommand`. -/
structure Child where
  /-- The loop index `i` of the `fork` that created it. -/
  stage : Nat
  /-- The system calls the child made since the `fork`, in order. -/
  trace : List Sys
  /-- The kernel state of the child. -/
  proc : Proc
  /-- The argument of `execCommand`: `argvs[i]`. -/
  argv : Option Cells
  deriving DecidableEq, Repr

/-- What a call of `pipeCalled` did. -/
structure PipeRun where
  /-- The returned value. -/
  ret : Bool
  /-- The shell state at the return. -/
  shell : Shell
  /-- The system calls of the shell process, in order. -/
  trace : List Sys
  /-- The children created, in order of creation. -/
  children : List Child
  /-- The cells of `pipefds` that were filled. -/
  pipefds : List Nat
  deriving DecidableEq, Repr

/-- The `while (argvs[numArgv] != NULL) numArgv++` loop of `pipeCalled`. -/
def countStages (junkS : Nat → Option Cells) (argvs : Stages) : Nat → Nat → Run Nat
  | 0, _ => .timeout
  | fuel + 1, numArgv =>
    match load junkS argvs numArgv with
    | none => .ret numArgv
    | some _ => countStages junkS argvs fuel (numArgv + 1)

/-- The pipe-creating `for` loop of `pipeCalled`, with `n` iterations left.
The `i`-th call `pipe(pipefds + 2 * i)` fills cells `2 * i` and `2 * i + 1`,
which are the next two cells of `pipefds`.  The flag is false when a call of
`pipe` failed. -/
def makePipes : Nat → Proc → List Nat → List Sys → Bool × Proc × List Nat × List Sys
  | 0, p, pipefds, tr => (true, p, pipefds, tr)
  | n + 1, p, pipefds, tr =>
    match sysPipe p with
    | none => (false, p, pipefds, tr)
    | some (r, w, p1) => makePipes n p1 (pipefds ++ [r, w]) (tr ++ [Sys.pipe r w])

/-- The call `dup2(oldfd, newfd)` with its result ignored. -/
def doDup2 (st : Proc × List Sys) (oldfd newfd : Nat) : Proc × List Sys :=
  ((sysDup2 st.1 oldfd newfd).getD st.1, st.2 ++ [Sys.dup2 oldfd newfd])

/-- The call `close(fd)`. -/
def doClose (st : Proc × List Sys) (fd : Nat) : Proc × List Sys :=
  (sysClose st.1 fd, st.2 ++ [Sys.close fd])

/-- The loop `for (j = 0; j < 2 * (numArgv - 1); j++) close(pipefds[j])`. -/
def closeAll (st : Proc × List Sys) (pipefds : List Nat) (numArgv : Nat) : Proc × List Sys :=
  (List.range (2 * (numArgv - 1))).foldl (fun s j => doClose s (pipefds.getD j 0)) st

/-- The child branch (`pid == 0`) of the `fork` loop of `pipeCalled`, up to the
call of `execCommand`; `p` is the kernel state inherited from the shell. -/
def pipeChild (junkS : Nat → Option Cells) (argvs : Stages) (pipefds : List Nat)
    (numArgv i : Nat) (p : Proc) : Child :=
  let s0 : Proc × List Sys := (p, [])
  let s1 := if i > 0 then doDup2 s0 (pipefds.getD (2 * (i - 1)) 0) STDIN_FILENO else s0
  let s2 := if i < numArgv - 1 then doDup2 s1 (pipefds.getD (2 * i + 1) 0) STDOUT_FILENO else s1
  let s3 := closeAll s2 pipefds numArgv
  { stage := i, trace := s3.2, proc := s3.1, argv := load junkS argvs i }

/-- The `fork` loop of `pipeCalled`, with `n` iterations left.  `fork i` is
what the `i`-th call of `fork` returns in the shell: the pid of the new child,
or `none` for a negative value.  The flag is false when a call failed. -/
def forkLoop (junkS : Nat → Option Cells) (fork : Nat → Option Nat) (argvs : Stages)
    (pipefds : List Nat) (numArgv : Nat) :
    Nat → Nat → Shell → List Sys → List Child → Bool × Shell × List Sys × List Child
  | 0, _, sh, tr, cs => (true, sh, tr, cs)
  | n + 1, i, sh, tr, cs =>
    match fork i with
    | none => (false, sh, tr, cs)
    | some pid =>
      forkLoop junkS fork argvs pipefds numArgv n (i + 1)
        { sh with kids := sh.kids ++ [⟨pid, false⟩] } (tr ++ [Sys.fork pid])
        (cs ++ [pipeChild junkS argvs pipefds numArgv i sh.proc])

/-- The loop `for (i = 0; i < numArgv; i++) wait(NULL)`, with `n` iterations
left; `wait i` is what the `i`-th call returns. -/
def waitAll (wait : Nat → Option Nat) : Nat → Nat → List Kid → List Sys → List Kid × List Sys
  | 0, _, kids, tr => (kids, tr)
  | n + 1, i, kids, tr =>
    waitAll wait n (i + 1) (sysWait kids (wait i)) (tr ++ [Sys.wait (wait i)])

/-- The function `pipeCalled` of `shell.c`. -/
def pipeCalled (junk : Nat → Cell) (junkS : Nat → Option Cells) (alloc : Nat → Bool)
    (PATH_MAX : Nat) (fork wait : Nat → Option Nat) (argv : Cells) (sh : Shell) : Run PipeRun :=
  (hasPipe junk argv).bind fun found =>
  if found = false then .ret ⟨false, sh, [], [], []⟩
  else
    (splitArgv junk junkS alloc PATH_MAX argv).bind fun r =>
    match r with
    | none => .ret ⟨false, sh, [], [], []⟩
    | some argvs =>
      (countStages junkS argvs (argvs.length + 1) 0).bind fun numArgv =>
      let r1 := makePipes (numArgv - 1) sh.proc [] []
      let pipefds := r1.2.2.1
      if r1.1 = false then .ret ⟨false, { sh with proc := r1.2.1 }, r1.2.2.2, [], pipefds⟩
      else
        let r2 := forkLoop junkS fork argvs pipefds numArgv numArgv 0
          { sh with proc := r1.2.1 } r1.2.2.2 []
        if r2.1 = false then .ret ⟨false, r2.2.1, r2.2.2.1, r2.2.2.2, pipefds⟩
        else
          let r3 := closeAll (r2.2.1.proc, r2.2.2.1) pipefds numArgv
          let r4 := waitAll wait numArgv 0 r2.2.1.kids r3.2
          .ret ⟨true, { r2.2.1 with proc := r3.1, kids := r4.1 }, r4.2, r2.2.2.2, pipefds⟩

/-! ## shell.c: single commands and background jobs -/

/-- What a call of `callFromPATH` did. -/
structure CallRun where
  /-- The returned value. -/
  ret : Bool
  /-- The cells of `argv` at the return. -/
  argv : Cells
  /-- The shell state at the return. -/
  shell : Shell
  /-- The vector handed to `execCommand` in the child, when a child was created. -/
  launched : Option Cells
  /-- Whether the shell called `wait(NULL)`. -/
  waited : Bool
  deriving DecidableEq, Repr

/-- The function `callFromPATH` of `shell.c`.  `fork` is what the call of
`fork` returns in the shell (`none`: a negative value), `wait` what the call
of `wait(NULL)` returns when it is made. -/
def callFromPATH (junk : Nat → Cell) (fork wait : Option Nat) (argv : Cells) (sh : Shell) :
    Run CallRun :=
  (getNumArgs junk argv).bind fun n =>
  match load junk argv ((n + (SIZE_MOD - 1)) % SIZE_MOD) with
  | none => .fault
  | some t =>
    let inBackground : Bool := decide (t = tokAmp)
    (if inBackground then
      let sh1 := { sh with backgroundProcesses := sh.backgroundProcesses + 1 }
      (getNumArgs junk argv).bind fun n1 =>
      match store argv ((n1 + (SIZE_MOD - 1)) % SIZE_MOD) none with
      | none => .fault
      | some argv1 => .ret (argv1, sh1)
    else .ret (argv, sh)).bind fun st =>
    match fork with
    | none => .ret ⟨false, st.1, st.2, none, false⟩
    | some pid =>
      let sh2 := { st.2 with kids := st.2.kids ++ [⟨pid, inBackground⟩] }
      if inBackground then .ret ⟨true, st.1, sh2, some st.1, false⟩
      else .ret ⟨true, st.1, { sh2 with kids := sysWait sh2.kids wait }, some st.1, true⟩

/-- The function `handleSIGCHLD` of `shell.c`.  The list holds the positive
values that the successive calls of `waitpid(-1, &status, WNOHANG)` return
before one returns a non-positive value. -/
def handleSIGCHLD : List Nat → Shell → Shell
  | [], sh => sh
  | pid :: more, sh =>
    let sh1 := { sh with kids := sysWait sh.kids (some pid) }
    if sh1.backgroundProcesses > 0 then
      handleSIGCHLD more { sh1 with backgroundProcesses := sh1.backgroundProcesses - 1 }
    else sh1

/-! ## shell.c: the loop -/

/-- The built-in commands; their bodies are outside the embedding. -/
inductive Builtin where
  | cd (path : Cell)
  | help
  | pwd
  | wait
  deriving DecidableEq, Repr

/-- The function `builtInCalled` of `shell.c`: the built-in that was called,
`none` for the `false` return. -/
def builtInCalled (junk : Nat → Cell) (argv : Cells) : Run (Option Builtin) :=
  match load junk argv 0 with
  | none => .fault
  | some a0 =>
    if a0 = ['c', 'd'] then .ret (some (Builtin.cd (load junk argv 1)))
    else if a0 = ['h', 'e', 'l', 'p'] then .ret (some Builtin.help)
    else if a0 = ['p', 'w', 'd'] then .ret (some Builtin.pwd)
    else if a0 = ['w', 'a', 'i', 't'] then .ret (some Builtin.wait)
    else .ret none

/-- What one call of `shellLoop` dispatched. -/
inductive Dispatch where
  /-- The call returned before looking at a command. -/
  | nothing
  /-- The command `exit` without arguments. -/
  | terminate
  | builtin (b : Builtin)
  | pipeline
  | external
  deriving DecidableEq, Repr

/-- The inputs of one call of `shellLoop` that the program does not control. -/
structure Oracle where
  junk : Nat → Cell
  junkS : Nat → Option Cells
  allocParse : Nat → Bool
  allocSplit : Nat → Bool
  pipeFork : Nat → Option Nat
  pipeWait : Nat → Option Nat
  callFork : Option Nat
  callWait : Option Nat
  PATH_MAX : Nat

/-- The macro `SHELL_CONTINUE` (1) as a `bool`. -/
def SHELL_CONTINUE : Bool := true
/-- The macro `SHELL_BREAK` (0) as a `bool`. -/
def SHELL_BREAK : Bool := false

/-- The function `shellLoop` of `shell.c` from the point where `getInput` has
returned `line` (`none` is `NULL`): the returned value, what was dispatched,
and the shell state. -/
def shellLoop (o : Oracle) (line : Option CStr) (sh : Shell) : Run (Bool × Dispatch × Shell) :=
  match line with
  | none => .fault
  | some l =>
    if l.head? = some '\n' then .ret (SHELL_CONTINUE, Dispatch.nothing, sh)
    else
      (parseLine o.junk o.allocParse l).bind fun r =>
      match r with
      | none => .ret (SHELL_CONTINUE, Dispatch.nothing, sh)
      | some argv =>
        match load o.junk argv 0 with
        | none => .fault
        | some a0 =>
          if a0 = ['e', 'x', 'i', 't'] ∧ load o.junk argv 1 = none then
            .ret (SHELL_BREAK, Dispatch.terminate, sh)
          else
            (builtInCalled o.junk argv).bind fun b =>
            match b with
            | some b => .ret (SHELL_CONTINUE, Dispatch.builtin b, sh)
            | none =>
              (pipeCalled o.junk o.junkS o.allocSplit o.PATH_MAX o.pipeFork o.pipeWait
                argv sh).bind fun pr =>
              if pr.ret then .ret (SHELL_CONTINUE, Dispatch.pipeline, pr.shell)
              else
                (callFromPATH o.junk o.callFork o.callWait argv pr.shell).bind fun cr =>
                .ret (SHELL_CONTINUE, Dispatch.external, cr.shell)

/-! ## Specification-side definitions -/

/-- Spec side: the segments of a token list cut at the `|` tokens, the first
one prefixed by `cur`. -/
def segmentsFrom (cur : List CStr) : List CStr → List (List CStr)
  | [] => [cur]
  | t :: ts => if t = tokPipe then cur :: segmentsFrom [] ts else segmentsFrom (cur ++ [t]) ts

/-- Spec side: the segments of a token list cut at the `|` tokens. -/
def segments (ts : List CStr) : List (List CStr) := segmentsFrom [] ts

/-- Spec side: whether two `|` tokens are adjacent. -/
def hasAdjacentPipes : List CStr → Bool
  | a :: b :: rest => (decide (a = tokPipe) && decide (b = tokPipe)) || hasAdjacentPipes (b :: rest)
  | _ => false

/-- Spec side: a malformed pipeline starts with `|`, ends with `|`, or has two adjacent `|`. -/
def malformedPipeline (ts : List CStr) : Bool :=
  decide (ts.head? = some tokPipe) || decide (ts.getLast? = some tokPipe) || hasAdjacentPipes ts

/-- Spec side: the number of descriptors that are not open. -/
def freeCount (fds : List (Option Obj)) : Nat := fds.count none

/-- Spec side: what cell `j` of `pipefds` refers to when the first pipe of the
pipeline is pipe number `base`: the read end of pipe `base + j / 2` for an even
`j`, its write end for an odd `j`. -/
def pipeEnd (base j : Nat) : Obj :=
  if j % 2 = 0 then Obj.pipeRd (base + j / 2) else Obj.pipeWr (base + j / 2)

/-- Spec side: the `pipe` calls that filled `pipefds`, two cells per call. -/
def pipeEvents : List Nat → List Sys
  | r :: w :: rest => Sys.pipe r w :: pipeEvents rest
  | _ => []

/-- Spec side: the system calls of child `i` of a pipeline of `n` stages before
it calls `execCommand`: the rebinding of standard input when `i > 0`, of
standard output when `i < n - 1`, then the closing of every pipe descriptor. -/
def childCalls (pipefds : List Nat) (n i : Nat) : List Sys :=
  (if 0 < i then [Sys.dup2 (pipefds.getD (2 * (i - 1)) 0) STDIN_FILENO] else [])
    ++ (if i < n - 1 then [Sys.dup2 (pipefds.getD (2 * i + 1) 0) STDOUT_FILENO] else [])
    ++ pipefds.map Sys.close

/-! ### The job counter as a transition system -/

/-- A step of the shell that touches the job counter or its children. -/
inductive Step where
  /-- A call of `callFromPATH`: a foreground or a background launch; the
  answer `none` of `fork` is a failed process creation. -/
  | launch (argv : Cells) (fork wait : Option Nat)
  /-- A call of `pipeCalled`. -/
  | pipeline (argv : Cells) (fork wait : Nat → Option Nat)
  /-- A run of `handleSIGCHLD` in which `waitpid` hands over the listed children. -/
  | sigchld (reaped : List Nat)

/-- The shell state after one step. -/
def step (junk : Nat → Cell) (junkS : Nat → Option Cells) (alloc : Nat → Bool)
    (PATH_MAX : Nat) : Step → Shell → Run Shell
  | Step.launch argv fork wait, sh =>
    (callFromPATH junk fork wait argv sh).map (fun r => r.shell)
  | Step.pipeline argv fork wait, sh =>
    (pipeCalled junk junkS alloc PATH_MAX fork wait argv sh).map (fun r => r.shell)
  | Step.sigchld reaped, sh => .ret (handleSIGCHLD reaped sh)

/-- The shell state after a sequence of steps. -/
def runSteps (junk : Nat → Cell) (junkS : Nat → Option Cells) (alloc : Nat → Bool)
    (PATH_MAX : Nat) : List Step → Shell → Run Shell
  | [], sh => .ret sh
  | s :: rest, sh =>
    (step junk junkS alloc PATH_MAX s sh).bind (runSteps junk junkS alloc PATH_MAX rest)

/-- Spec side: the number of background children created and not yet reaped. -/
def bgCount (kids : List Kid) : Nat := (kids.filter (fun k => k.background)).length

/-- Spec side: no background child has this pid. -/
def NotBackground (kids : List Kid) (pid : Nat) : Prop :=
  ∀ k ∈ kids, k.background = true → k.pid ≠ pid

/-- Spec side: the conditions under which a step keeps the counter exact: a
launch that counts a background job did create the process; a `wait` of the
main flow does not reap a background child; `handleSIGCHLD` reaps each child
once and reaps only children that are background children. -/
def goodStep (junk : Nat → Cell) : Step → Shell → Prop
  | Step.launch argv fork wait, sh =>
    (∀ r, callFromPATH junk fork wait argv sh = .ret r →
        r.shell.backgroundProcesses ≠ sh.backgroundProcesses → fork ≠ none)
    ∧ (∀ pid, wait = some pid → NotBackground sh.kids pid)
  | Step.pipeline _ _ wait, sh => ∀ i pid, wait i = some pid → NotBackground sh.kids pid
  | Step.sigchld reaped, sh =>
    reaped.Nodup ∧ ∀ pid ∈ reaped, ∃ k, sh.kids.filter (fun x => x.pid == pid) = [k]
      ∧ k.background = true

/-- Spec side: every step of the run is good in the state it starts from. -/
def GoodRun (junk : Nat → Cell) (junkS : Nat → Option Cells) (alloc : Nat → Bool)
    (PATH_MAX : Nat) : List Step → Shell → Prop
  | [], _ => True
  | s :: rest, sh =>
    goodStep junk s sh
    ∧ ∀ sh1, step junk junkS alloc PATH_MAX s sh = .ret sh1 →
        GoodRun junk junkS alloc PATH_MAX rest sh1

/-! ## Facts about lists and cell arrays -/

theorem drop_length_takeWhile {α : Type} (p : α → Bool) (s : List α) :
    s.drop (s.takeWhile p).length = s.dropWhile p := by
  induction s with
  | nil => rfl
  | cons c s ih =>
    by_cases h : p c = true
    · simp [List.takeWhile_cons, List.dropWhile_cons, h, ih]
    · simp [List.takeWhile_cons, List.dropWhile_cons, h]

theorem take_length_takeWhile {α : Type} (p : α → Bool) (s : List α) :
    s.take (s.takeWhile p).length = s.takeWhile p := by
  induction s with
  | nil => rfl
  | cons c s ih =>
    by_cases h : p c = true
    · simp [List.takeWhile_cons, h, ih]
    · simp [List.takeWhile_cons, h]

theorem load_lt {α : Type} (junk : Nat → α) (a : List α) (i : Nat) (h : i < a.length) :
    load junk a i = a[i] := by
  simp [load, h]

theorem load_append_left {α : Type} (junk : Nat → α) (a b : List α) (i : Nat)
    (h : i < a.length) :
    load junk (a ++ b) i = a[i] := by
  have h2 : i < (a ++ b).length := by simp; omega
  rw [load_lt junk _ _ h2, List.getElem_append_left h]

theorem load_append_right {α : Type} (junk : Nat → α) (a b : List α) (i : Nat) :
    load junk (a ++ b) (a.length + i) = load (fun k => junk (a.length + k)) b i := by
  unfold load
  by_cases h : i < b.length
  · have h2 : a.length + i < (a ++ b).length := by simp; omega
    simp [h, h2, List.getElem_append_right]
  · have h2 : ¬ a.length + i < (a ++ b).length := by simp; omega
    simp [h, h2]

theorem store_append_right {α : Type} (a b : List α) (i : Nat) (v : α) (h : i < b.length) :
    store (a ++ b) (a.length + i) v = some (a ++ b.set i v) := by
  have h2 : a.length + i < (a ++ b).length := by simp; omega
  simp [store, h2, List.set_append, h]

theorem tokensOf_isVec (a : Cells) (ts : List CStr) (h : IsVec a ts) : tokensOf a = ts := by
  obtain ⟨post, rfl⟩ := h
  induction ts with
  | nil => rfl
  | cons t ts ih => simp [tokensOf, ih]

theorem realloc_grow (junk : Nat → Cell) (acc : List CStr) :
    realloc junk (acc.map some ++ [none]) (acc.length + 2)
      = acc.map some ++ [none, junk (acc.length + 1)] := by
  have h : (List.map some acc ++ [none]).length = acc.length + 1 := by simp
  unfold realloc
  rw [List.take_of_length_le (by omega), h]
  simp [List.range_succ]

theorem parse_cells_step (junk : Nat → Cell) (acc : List CStr) (tok : CStr) :
    ∃ a1, store (realloc junk (acc.map some ++ [none]) (acc.length + 2)) acc.length (some tok)
        = some a1 ∧
      store a1 (acc.length + 1) none = some ((acc ++ [tok]).map some ++ [none]) := by
  rw [realloc_grow]
  have h1 := store_append_right (acc.map some) [none, junk (acc.length + 1)] 0 (some tok) (by simp)
  simp only [List.length_map, Nat.add_zero] at h1
  rw [h1]
  have h2 := store_append_right (acc.map some) ([none, junk (acc.length + 1)].set 0 (some tok)) 1 none (by simp)
  simp only [List.length_map, List.set_cons_zero, List.set_cons_succ] at h2
  exact ⟨_, rfl, by simp [h2]⟩

/-! ## Tokenizer -/

theorem splitOnP_eq {α : Type} (p : α → Bool) (s : List α) :
    s.splitOnP p = s.takeWhile (fun c => !p c) ::
      (match s.dropWhile (fun c => !p c) with
       | [] => []
       | _ :: r => r.splitOnP p) := by
  induction s with
  | nil => simp
  | cons c s ih =>
    rw [List.splitOnP_cons]
    by_cases h : p c = true
    · simp [h, List.takeWhile_cons, List.dropWhile_cons]
    · rw [ih]
      simp [h, List.takeWhile_cons, List.dropWhile_cons, List.modifyHead]

theorem tokenRuns_nil (delim : CStr) : tokenRuns delim [] = [] := by
  simp [tokenRuns]

theorem tokenRuns_cons_delim (delim : CStr) (c : Char) (s : CStr) (h : c ∈ delim) :
    tokenRuns delim (c :: s) = tokenRuns delim s := by
  simp [tokenRuns, List.splitOnP_cons, h]

theorem tokenRuns_dropWhile (delim s : CStr) :
    tokenRuns delim (s.dropWhile (fun c => decide (c ∈ delim))) = tokenRuns delim s := by
  induction s with
  | nil => rfl
  | cons c s ih =>
    by_cases h : c ∈ delim
    · simp [List.dropWhile_cons, h, ih, tokenRuns_cons_delim]
    · simp [List.dropWhile_cons, h]

theorem tokenRuns_token (delim s : CStr) (c : Char) (h : c ∉ delim) :
    tokenRuns delim (c :: s) = (c :: s).takeWhile (fun c => !decide (c ∈ delim)) ::
      tokenRuns delim (((c :: s).dropWhile (fun c => !decide (c ∈ delim))).drop 1) := by
  unfold tokenRuns
  rw [splitOnP_eq]
  have : List.takeWhile (fun c => !decide (c ∈ delim)) (c :: s) ≠ [] := by
    simp [List.takeWhile_cons, h]
  rw [List.filter_cons]
  simp only [this, ne_eq, not_false_eq_true, decide_True, if_true]
  congr 1
  cases hd : List.dropWhile (fun c => !decide (c ∈ delim)) (c :: s) with
  | nil => simp
  | cons d r => simp

theorem strtok_none (delim s : CStr)
    (h : s.dropWhile (fun c => decide (c ∈ delim)) = []) :
    strtok s delim = (none, []) ∧ tokenRuns delim s = [] := by
  refine ⟨?_, ?_⟩
  · simp [strtok, strspn, drop_length_takeWhile, h]
  · rw [← tokenRuns_dropWhile, h, tokenRuns_nil]

theorem strtok_some (delim s : CStr) (c : Char) (r : CStr)
    (h : s.dropWhile (fun c => decide (c ∈ delim)) = c :: r) :
    ∃ tok save, strtok s delim = (some tok, save) ∧ save.length < s.length ∧
      tokenRuns delim s = tok :: tokenRuns delim save := by
  have hc : c ∉ delim := by
    have := List.head_dropWhile_not (fun c => decide (c ∈ delim)) s (by rw [h]; simp)
    simpa [h] using this
  refine ⟨(c :: r).takeWhile (fun c => !decide (c ∈ delim)),
    ((c :: r).dropWhile (fun c => !decide (c ∈ delim))).drop 1, ?_, ?_, ?_⟩
  · simp only [strtok, strspn, strcspn, drop_length_takeWhile, h, take_length_takeWhile]
    simp
  · have h1 : (c :: r).length ≤ s.length := by
      rw [← h]; exact (List.dropWhile_sublist _).length_le
    have h2 : ((c :: r).dropWhile (fun c => !decide (c ∈ delim))).length ≤ r.length := by
      simp only [List.dropWhile_cons, hc, decide_False, Bool.not_false, if_true]
      exact (List.dropWhile_sublist _).length_le
    simp only [List.length_drop, List.length_cons] at *
    omega
  · rw [← tokenRuns_dropWhile, h, tokenRuns_token delim r c hc]

theorem parseLoop_spec (junk : Nat → Cell) (alloc : Nat → Bool) (delim : CStr)
    (halloc : ∀ k, alloc k = true) :
    ∀ (fuel : Nat) (s : CStr) (acc : List CStr), s.length < fuel →
      parseLoop junk alloc delim fuel (acc.map some ++ [none]) acc.length
          (strtok s delim).1 (strtok s delim).2
        = .ret (some ((acc ++ tokenRuns delim s).map some ++ [none])) := by
  intro fuel
  induction fuel with
  | zero => intro s acc h; omega
  | succ fuel ih =>
    intro s acc hlen
    cases hd : s.dropWhile (fun c => decide (c ∈ delim)) with
    | nil =>
      obtain ⟨h1, h2⟩ := strtok_none delim s hd
      simp [h1, h2, parseLoop]
    | cons c r =>
      obtain ⟨tok, save, h1, h2, h3⟩ := strtok_some delim s c r hd
      obtain ⟨a1, hs1, hs2⟩ := parse_cells_step junk acc tok
      rw [h1, h3]
      simp only [parseLoop, halloc, hs1, hs2]
      have := ih save (acc ++ [tok]) (by omega)
      simp only [List.length_append, List.length_singleton] at this
      simpa using this

theorem parse_spec (junk : Nat → Cell) (alloc : Nat → Bool) (halloc : ∀ k, alloc k = true)
    (line delim : CStr) :
    parse junk alloc line delim = .ret (some ((tokenRuns delim line).map some ++ [none])) := by
  have := parseLoop_spec junk alloc delim halloc (line.length + 1) line [] (by omega)
  simpa [parse, halloc] using this

theorem tokenRuns_replicate (delim : CStr) (d : Char) (hd : d ∈ delim) (k : Nat) (s : CStr) :
    tokenRuns delim (List.replicate k d ++ s) = tokenRuns delim s := by
  induction k with
  | zero => simp
  | succ k ih => simp [List.replicate_succ, tokenRuns_cons_delim delim d _ hd, ih]

theorem takeWhile_append_stop {α : Type} (p : α → Bool) (t tail : List α)
    (ht : ∀ c ∈ t, p c = true) (htail : ∀ c, tail.head? = some c → p c = false) :
    (t ++ tail).takeWhile p = t ∧ (t ++ tail).dropWhile p = tail := by
  induction t with
  | nil =>
    cases tail with
    | nil => simp
    | cons c r => simp [List.takeWhile_cons, List.dropWhile_cons, htail c rfl]
  | cons c t ih =>
    have hc := ht c (by simp)
    have := ih (fun c hc => ht c (by simp [hc]))
    simp [List.takeWhile_cons, List.dropWhile_cons, hc, this]

theorem tokenRuns_append (delim t tail : CStr) (hne : t ≠ []) (ht : ∀ c ∈ t, c ∉ delim)
    (htail : ∀ c, tail.head? = some c → c ∈ delim) :
    tokenRuns delim (t ++ tail) = t :: tokenRuns delim (tail.drop 1) := by
  obtain ⟨h1, h2⟩ := takeWhile_append_stop (fun c => !decide (c ∈ delim)) t tail
    (by intro c hc; simp [ht c hc]) (by intro c hc; simp [htail c hc])
  cases t with
  | nil => exact absurd rfl hne
  | cons c t =>
    rw [List.cons_append, tokenRuns_token delim _ c (ht c (by simp)), ← List.cons_append, h1, h2]

theorem tokenRuns_spacedLine (t0 : CStr) (rest : List (Nat × CStr))
    (h0 : t0 ≠ [] ∧ ' ' ∉ t0) (hrest : ∀ p ∈ rest, p.2 ≠ [] ∧ ' ' ∉ p.2) :
    tokenRuns [' '] (spacedLine t0 rest) = t0 :: rest.map Prod.snd := by
  induction rest generalizing t0 with
  | nil =>
    have := tokenRuns_append [' '] t0 [] h0.1 (by intro c hc; simp; rintro rfl; exact h0.2 hc)
      (by simp)
    simpa [spacedLine, tokenRuns_nil] using this
  | cons p rest ih =>
    have hp := hrest p (by simp)
    have ih2 := ih p.2 hp (fun q hq => hrest q (by simp [hq]))
    have := tokenRuns_append [' '] t0
      (List.replicate (p.1 + 1) ' ' ++ spacedLine p.2 rest) h0.1
      (by intro c hc; simp; rintro rfl; exact h0.2 hc)
      (by intro c; simp [List.replicate_succ]; intro h; exact h.symm)
    simp only [spacedLine, List.map_cons, List.flatten_cons, List.append_assoc] at this ih2 ⊢
    rw [this]
    rw [List.replicate_succ, List.cons_append, List.drop_succ_cons, List.drop_zero,
      tokenRuns_replicate [' '] ' ' (by simp), ih2]

theorem tokenRuns_all_delim (delim line : CStr) (h : ∀ c ∈ line, c ∈ delim) :
    tokenRuns delim line = [] := by
  induction line with
  | nil => exact tokenRuns_nil delim
  | cons c s ih =>
    rw [tokenRuns_cons_delim delim c s (h c (by simp))]
    exact ih (fun d hd => h d (by simp [hd]))

theorem take_strcspn_newline (s : CStr) (h : '\n' ∉ s) :
    (s ++ ['\n']).take (strcspn (s ++ ['\n']) ['\n']) = s := by
  unfold strcspn
  rw [take_length_takeWhile]
  exact (takeWhile_append_stop _ s ['\n']
    (by intro c hc; simp; rintro rfl; exact h hc) (by simp)).1

/-! ## Vectors in memory -/

@[simp] theorem Run.ret_bind {α β : Type} (a : α) (f : α → Run β) :
    (Run.ret a).bind f = f a := rfl

@[simp] theorem Run.exit_bind {α β : Type} (s : Nat) (f : α → Run β) :
    (Run.exit s : Run α).bind f = .exit s := rfl

@[simp] theorem Run.map_ret {α β : Type} (a : α) (f : α → β) :
    (Run.ret a).map f = .ret (f a) := rfl

@[simp] theorem Run.map_exit {α β : Type} (s : Nat) (f : α → β) :
    (Run.exit s : Run α).map f = .exit s := rfl

@[simp] theorem Run.fault_bind {α β : Type} (f : α → Run β) :
    (Run.fault : Run α).bind f = .fault := rfl

@[simp] theorem Run.timeout_bind {α β : Type} (f : α → Run β) :
    (Run.timeout : Run α).bind f = .timeout := rfl

theorem Run.map_bind {α β γ : Type} (r : Run α) (f : α → Run β) (g : β → γ) :
    (r.bind f).map g = r.bind (fun a => (f a).map g) := by
  cases r <;> rfl

theorem isVec_vec (ts : List CStr) (post : Cells) : IsVec (vec ts post) ts := ⟨post, rfl⟩

theorem tokensOf_vec (ts : List CStr) (post : Cells) : tokensOf (vec ts post) = ts :=
  tokensOf_isVec _ _ (isVec_vec ts post)

theorem length_vec (ts : List CStr) (post : Cells) :
    (vec ts post).length = ts.length + 1 + post.length := by
  simp [vec]; omega

theorem load_vec_mid (junk : Nat → Cell) (pre : List CStr) (t : CStr) (more : List CStr)
    (post : Cells) : load junk (vec (pre ++ t :: more) post) pre.length = some t := by
  have h : pre.length < (vec (pre ++ t :: more) post).length := by
    rw [length_vec]; simp; omega
  rw [load_lt junk _ _ h]
  simp [vec, List.getElem_append_right]

theorem load_vec_end (junk : Nat → Cell) (pre : List CStr) (post : Cells) :
    load junk (vec pre post) pre.length = none := by
  have h : pre.length < (vec pre post).length := by
    rw [length_vec]; omega
  rw [load_lt junk _ _ h]
  simp [vec, List.getElem_append_right]

theorem load_vec_next (junk : Nat → Cell) (pre : List CStr) (t f : CStr) (more : List CStr)
    (post : Cells) : load junk (vec (pre ++ t :: f :: more) post) (pre.length + 1) = some f := by
  have := load_vec_mid junk (pre ++ [t]) f more post
  simpa using this

theorem load_vec_next_end (junk : Nat → Cell) (pre : List CStr) (t : CStr)
    (post : Cells) : load junk (vec (pre ++ [t]) post) (pre.length + 1) = none := by
  have := load_vec_end junk (pre ++ [t]) post
  simpa using this

theorem load_cells_at {α : Type} (junk : Nat → α) (pre : List α) (x : α) (more : List α) :
    load junk (pre ++ x :: more) pre.length = x := by
  have := load_append_right junk pre (x :: more) 0
  simpa [load] using this

theorem load_cells_at1 {α : Type} (junk : Nat → α) (pre : List α) (x y : α)
    (more : List α) :
    load junk (pre ++ x :: y :: more) (pre.length + 1) = y := by
  have := load_append_right junk pre (x :: y :: more) 1
  simpa [load] using this

theorem load_cells_at2 {α : Type} (junk : Nat → α) (pre : List α) (x y z : α)
    (more : List α) :
    load junk (pre ++ x :: y :: z :: more) (pre.length + 2) = z := by
  have := load_append_right junk pre (x :: y :: z :: more) 2
  simpa [load] using this

theorem store_cells_at {α : Type} (pre : List α) (x : α) (more : List α) (v : α) :
    store (pre ++ x :: more) pre.length v = some (pre ++ v :: more) := by
  have := store_append_right pre (x :: more) 0 v (by simp)
  simpa using this

theorem store_cells_at1 {α : Type} (pre : List α) (x y : α) (more : List α) (v : α) :
    store (pre ++ x :: y :: more) (pre.length + 1) v = some (pre ++ x :: v :: more) := by
  have := store_append_right pre (x :: y :: more) 1 v (by simp)
  simpa using this

/-! ## resizeArgv -/

theorem resizeArgvLoop_shift (junk : Nat → Cell) :
    ∀ (rest : List CStr) (pre : Cells) (a b : CStr) (post : Cells) (fuel : Nat),
      rest.length + 3 ≤ fuel →
      ∃ post', resizeArgvLoop junk fuel
          (pre ++ some a :: some b :: (rest.map some ++ none :: post)) pre.length
          = .ret (pre ++ (rest.map some ++ none :: post')) ∧ post'.length = post.length + 2 := by
  intro rest
  induction rest with
  | nil =>
    intro pre a b post fuel hf
    obtain ⟨k, rfl⟩ : ∃ k, fuel = k + 3 := ⟨fuel - 3, by simp at hf; omega⟩
    refine ⟨load junk (pre ++ none :: some b :: none :: post) (pre.length + 1 + 2)
      :: none :: post, ?_, by simp⟩
    simp only [List.map_nil, List.nil_append]
    rw [resizeArgvLoop, load_cells_at, load_cells_at2]
    simp only [store_cells_at]
    rw [resizeArgvLoop, load_cells_at1]
    simp only [store_cells_at1]
    rw [resizeArgvLoop, load_cells_at2]
  | cons r rest ih =>
    intro pre a b post fuel hf
    obtain ⟨k, rfl⟩ : ∃ k, fuel = k + 1 := ⟨fuel - 1, by simp at hf; omega⟩
    obtain ⟨post', h1, h2⟩ := ih (pre ++ [some r]) b r post k (by simp at hf ⊢; omega)
    refine ⟨post', ?_, h2⟩
    simp only [List.map_cons, List.cons_append]
    rw [resizeArgvLoop, load_cells_at, load_cells_at2]
    simp only [store_cells_at]
    simp only [List.length_append, List.length_singleton, List.append_assoc,
      List.singleton_append] at h1
    exact h1

theorem resizeArgv_vec (junk : Nat → Cell) (pre : List CStr) (a b : CStr) (rest : List CStr)
    (post : Cells) :
    ∃ post', resizeArgv junk (vec (pre ++ a :: b :: rest) post) pre.length
      = .ret (vec (pre ++ rest) post') ∧ post'.length = post.length + 2 := by
  obtain ⟨post', h1, h2⟩ := resizeArgvLoop_shift junk rest (pre.map some) a b post
    ((vec (pre ++ a :: b :: rest) post).length + 1) (by rw [length_vec]; simp; omega)
  refine ⟨post', ?_, h2⟩
  simp only [List.length_map] at h1
  simpa [resizeArgv, vec] using h1

/-! ## redirect -/

theorem size_mod_eq : SIZE_MOD = 18446744073709551616 := by
  norm_num [SIZE_MOD]

theorem size_succ (i : Nat) (h : i + 1 < SIZE_MOD) : (i + 1) % SIZE_MOD = i + 1 :=
  Nat.mod_eq_of_lt h

theorem size_pred (i : Nat) (h : i + 1 < SIZE_MOD) :
    (i + 1 + (SIZE_MOD - 1)) % SIZE_MOD = i := by
  rw [size_mod_eq] at *
  omega

theorem redirectIf_other (junk : Nat → Cell) (marker : CStr) (rebind : Proc → CStr → Run Proc)
    (argv : Cells) (i : Nat) (p : Proc) (t : CStr)
    (h : load junk argv i = some t) (hne : t ≠ marker) :
    redirectIf junk marker rebind argv i p = .ret (argv, i, p) := by
  simp [redirectIf, h, hne]

theorem redirectIf_last (junk : Nat → Cell) (marker : CStr) (rebind : Proc → CStr → Run Proc)
    (argv : Cells) (i : Nat) (p : Proc) (t : CStr)
    (h : load junk argv i = some t) (hn : load junk argv ((i + 1) % SIZE_MOD) = none) :
    redirectIf junk marker rebind argv i p = .ret (argv, i, p) := by
  by_cases hm : t = marker <;> simp [redirectIf, h, hn, hm]

theorem redirectIf_fire (junk : Nat → Cell) (marker : CStr) (rebind : Proc → CStr → Run Proc)
    (init : List CStr) (l f : CStr) (rest : List CStr) (post : Cells) (p : Proc)
    (hlen : (vec (init ++ l :: marker :: f :: rest) post).length < SIZE_MOD) :
    ∃ post', post'.length = post.length + 2 ∧
      redirectIf junk marker rebind (vec (init ++ l :: marker :: f :: rest) post)
          (init.length + 1) p
        = (rebind p f).bind fun p1 => .ret (vec (init ++ l :: rest) post', init.length, p1) := by
  obtain ⟨post', h1, h2⟩ := resizeArgv_vec junk (init ++ [l]) marker f rest post
  simp only [List.append_assoc, List.singleton_append, List.length_append,
    List.length_singleton] at h1
  refine ⟨post', h2, ?_⟩
  have hl1 := load_vec_mid junk (init ++ [l]) marker (f :: rest) post
  have hl2 := load_vec_next junk (init ++ [l]) marker f rest post
  simp only [List.append_assoc, List.singleton_append, List.length_append,
    List.length_singleton] at hl1 hl2
  rw [length_vec] at hlen
  simp only [List.length_append, List.length_cons] at hlen
  have hs := size_succ (init.length + 1) (by omega)
  have hp := size_pred init.length (by omega)
  simp only [redirectIf, hl1, hs, hl2, h1, if_true, hp, Run.ret_bind]

theorem redirectLoop_spec (junk : Nat → Cell) :
    ∀ (fuel : Nat) (todo init : List CStr) (l : CStr) (post : Cells) (p : Proc),
      todo.length + 1 ≤ fuel → (l ≠ tokOut ∨ todo = []) →
      (vec (init ++ l :: todo) post).length < SIZE_MOD →
      (redirectLoop junk fuel (vec (init ++ l :: todo) post) (init.length + 1) p).map
          (fun r => (tokensOf r.1, r.2))
        = (applyRedirs (redirPairs todo) p).map
            (fun p' => (init ++ l :: stripRedirs todo, p')) := by
  intro fuel
  induction fuel with
  | zero => intro todo init l post p hf; omega
  | succ fuel ih =>
    intro todo init l post p hf hinv hlen
    have hlen' := hlen
    rw [length_vec] at hlen'
    simp only [List.length_append, List.length_cons] at hlen'
    match todo, hf, hinv, hlen, hlen' with
    | [], _, _, _, _ =>
      have h0 := load_vec_next_end junk init l post
      simp [redirectLoop, h0, redirPairs, stripRedirs, applyRedirs, tokensOf_vec]
    | [t], hf, _, hlen, hlen' =>
      have h0 := load_vec_mid junk (init ++ [l]) t [] post
      have h1 := load_vec_next_end junk (init ++ [l]) t post
      simp only [List.append_assoc, List.singleton_append, List.length_append,
        List.length_singleton] at h0 h1 hlen'
      have hs := size_succ (init.length + 1) (by omega)
      have hi := ih [] (init ++ [l]) t post p (by simp at hf ⊢; omega) (Or.inr rfl)
        (by simpa using hlen)
      simp only [List.append_assoc, List.singleton_append, List.length_append,
        List.length_singleton] at hi
      rw [redirectLoop, h0]
      simp only [redirectIf_last junk _ _ _ _ _ t h0 (by rw [hs]; exact h1), Run.ret_bind, hs]
      rw [hi]
      simp [redirPairs, stripRedirs, applyRedirs]
    | t :: f :: rest, hf, hinv, hlen, hlen' =>
      have hl : l ≠ tokOut := by
        rcases hinv with h | h
        · exact h
        · simp at h
      have h0 := load_vec_mid junk (init ++ [l]) t (f :: rest) post
      simp only [List.append_assoc, List.singleton_append, List.length_append,
        List.length_singleton] at h0
      simp only [List.length_cons] at hlen' hf
      have hs0 := size_succ init.length (by omega)
      have hs := size_succ (init.length + 1) (by omega)
      rw [redirectLoop, h0]
      simp only
      by_cases hin : t = tokIn
      · subst hin
        obtain ⟨post', hp', hfire⟩ := redirectIf_fire junk tokIn setNewIn init l f rest post p hlen
        have hi := ih rest init l post' p (by simp at hf ⊢; omega) (Or.inl hl)
          (by rw [length_vec]; simp; omega)
        rw [hfire]
        cases hset : setNewIn p f with
        | ret p1 =>
          have hl0 := load_vec_mid junk init l rest post'
          have hi := ih rest init l post' p1 (by simp at hf ⊢; omega) (Or.inl hl)
            (by rw [length_vec]; simp; omega)
          simp only [Run.ret_bind,
            redirectIf_other junk tokOut setNewOut _ _ p1 l hl0 hl, hs0]
          rw [hi]
          simp [redirPairs, stripRedirs, applyRedirs, hset]
        | exit st => simp [redirPairs, applyRedirs, hset, Run.map, Run.bind]
        | fault => simp [redirPairs, applyRedirs, hset, Run.map, Run.bind]
        | timeout => simp [redirPairs, applyRedirs, hset, Run.map, Run.bind]
      · by_cases hout : t = tokOut
        · subst hout
          obtain ⟨post', hp', hfire⟩ :=
            redirectIf_fire junk tokOut setNewOut init l f rest post p hlen
          simp only [redirectIf_other junk tokIn setNewIn _ _ p tokOut h0 hin, Run.ret_bind]
          rw [hfire]
          cases hset : setNewOut p f with
          | ret p1 =>
            have hi := ih rest init l post' p1 (by simp at hf ⊢; omega) (Or.inl hl)
              (by rw [length_vec]; simp; omega)
            simp only [Run.ret_bind, hs0]
            rw [hi]
            simp [redirPairs, stripRedirs, applyRedirs, hset, hin]
          | exit st => simp [redirPairs, applyRedirs, hset, Run.map, Run.bind, hin]
          | fault => simp [redirPairs, applyRedirs, hset, Run.map, Run.bind, hin]
          | timeout => simp [redirPairs, applyRedirs, hset, Run.map, Run.bind, hin]
        · have hi := ih (f :: rest) (init ++ [l]) t post p (by simp at hf ⊢; omega)
            (Or.inl hout) (by simpa using hlen)
          simp only [List.append_assoc, List.singleton_append, List.length_append,
            List.length_singleton] at hi
          simp only [redirectIf_other junk tokIn setNewIn _ _ p t h0 hin,
            redirectIf_other junk tokOut setNewOut _ _ p t h0 hout, Run.ret_bind, hs]
          rw [hi]
          simp [redirPairs, stripRedirs, hin, hout]

/-! ## Descriptor table -/

theorem fdGet_eq (p : Proc) (fd : Nat) : fdGet p fd = (p.fds[fd]?).join := by
  unfold fdGet
  by_cases h : fd < p.fds.length
  · simp [h, List.getElem?_eq_getElem]
  · simp [h, List.getElem?_eq_none (Nat.le_of_not_lt h)]

theorem lowestFree_spec (fds : List (Option Obj)) (i : Nat) (h : lowestFree fds = some i) :
    i < fds.length ∧ fds[i]? = some none := by
  unfold lowestFree at h
  simp only at h
  split at h
  · rename_i hlt
    injection h with h
    subst h
    refine ⟨hlt, ?_⟩
    have := List.findIdx_getElem (w := hlt)
    rw [List.getElem?_eq_getElem hlt]
    simpa using this
  · exact absurd h (by simp)

theorem fdGet_set (p q : Proc) (j i : Nat) (v : Option Obj) (hq : q.fds = p.fds.set j v) :
    fdGet q i = if j = i ∧ j < p.fds.length then v else fdGet p i := by
  rw [fdGet_eq, fdGet_eq, hq]
  simp only [List.getElem?_set]
  by_cases hji : j = i
  · subst hji
    by_cases hlt : j < p.fds.length
    · simp [hlt]
    · simp [hlt, List.getElem?_eq_none (Nat.le_of_not_lt hlt)]
  · simp [hji]

theorem sysOpen_spec (p : Proc) (path : CStr) (flags mode : Nat) (fd : Nat) (p1 : Proc)
    (h : sysOpen p path flags mode = some (fd, p1)) :
    fd < p.fds.length ∧ fdGet p fd = none ∧
      p1.fds = p.fds.set fd (some (Obj.file path flags)) := by
  unfold sysOpen at h
  cases hfree : lowestFree p.fds with
  | none => simp [hfree] at h
  | some i =>
    obtain ⟨hlt, hnone⟩ := lowestFree_spec _ _ hfree
    simp only [hfree] at h
    have hget : fdGet p i = none := by rw [fdGet_eq, hnone]; rfl
    cases hfile : lookupFile p.files path with
    | none =>
      simp only [hfile] at h
      split at h
      · injection h with h
        injection h with h1 h2
        subst h1 h2
        exact ⟨hlt, hget, rfl⟩
      · exact absurd h (by simp)
    | some f =>
      simp only [hfile] at h
      split at h
      · injection h with h
        injection h with h1 h2
        subst h1 h2
        exact ⟨hlt, hget, rfl⟩
      · exact absurd h (by simp)

theorem rebind_fds (p : Proc) (path : CStr) (flags mode target : Nat) (p' : Proc)
    (h : (match sysOpen p path flags mode with
          | none => Run.exit EXIT_FAILURE
          | some (fd, p1) =>
            match sysDup2 p1 fd target with
            | none => Run.exit EXIT_FAILURE
            | some p2 => Run.ret (sysClose p2 fd)) = .ret p') (i : Nat)
    (hi : fdGet p i ≠ none) :
    fdGet p' i = if i = target then some (Obj.file path flags) else fdGet p i := by
  cases hopen : sysOpen p path flags mode with
  | none => simp [hopen] at h
  | some r =>
    obtain ⟨fd, p1⟩ := r
    obtain ⟨hlt, hfree, hfds⟩ := sysOpen_spec p path flags mode fd p1 hopen
    simp only [hopen] at h
    have hg1 : fdGet p1 fd = some (Obj.file path flags) := by
      have := fdGet_set p p1 fd fd (some (Obj.file path flags)) hfds
      simpa [hlt] using this
    cases hdup : sysDup2 p1 fd target with
    | none => simp [hdup] at h
    | some p2 =>
      simp only [hdup] at h
      injection h with h
      subst h
      unfold sysDup2 at hdup
      simp only [hg1] at hdup
      split at hdup
      · rename_i htl
        injection hdup with hdup
        subst hdup
        have e1 := fdGet_set { p1 with fds := p1.fds.set target (some (Obj.file path flags)) } (sysClose { p1 with fds := p1.fds.set target (some (Obj.file path flags)) } fd) fd i none rfl
        have e2 := fdGet_set p1 { p1 with fds := p1.fds.set target (some (Obj.file path flags)) } target i (some (Obj.file path flags)) rfl
        have e3 := fdGet_set p p1 fd i (some (Obj.file path flags)) hfds
        have hlen : p1.fds.length = p.fds.length := by rw [hfds, List.length_set]
        simp only [List.length_set, hlen] at e1 e2 e3
        rw [e1, e2, e3]
        rw [hlen] at htl
        have hfi : fd ≠ i := by
          intro hfi
          subst hfi
          exact hi hfree
        by_cases hti : target = i
        · subst hti
          simp [hfi, htl]
        · simp [hfi, hti, Ne.symm hti]
      · exact absurd hdup (by simp)

theorem setNewOut_fd (p p' : Proc) (f : CStr) (h : setNewOut p f = .ret p') (i : Nat)
    (hi : fdGet p i ≠ none) :
    fdGet p' i = if i = STDOUT_FILENO then some (Obj.file f (O_CREAT ||| O_WRONLY))
      else fdGet p i :=
  rebind_fds p f (O_CREAT ||| O_WRONLY) 0o644 STDOUT_FILENO p' h i hi

theorem setNewIn_fd (p p' : Proc) (f : CStr) (h : setNewIn p f = .ret p') (i : Nat)
    (hi : fdGet p i ≠ none) :
    fdGet p' i = if i = STDIN_FILENO then some (Obj.file f O_RDONLY) else fdGet p i :=
  rebind_fds p f O_RDONLY 0 STDIN_FILENO p' h i hi

theorem applyRedirs_stdout :
    ∀ (rs : List Redir) (p p' : Proc), applyRedirs rs p = .ret p' →
      fdGet p STDOUT_FILENO ≠ none →
      fdGet p' STDOUT_FILENO =
        match lastOutput rs with
        | some f => some (Obj.file f (O_CREAT ||| O_WRONLY))
        | none => fdGet p STDOUT_FILENO := by
  intro rs
  induction rs with
  | nil =>
    intro p p' h _
    simp only [applyRedirs] at h
    injection h with h
    subst h
    simp [lastOutput]
  | cons r rs ih =>
    intro p p' h hopen
    cases r with
    | input f =>
      simp only [applyRedirs] at h
      cases hset : setNewIn p f with
      | ret p1 =>
        rw [hset] at h
        have h1 := setNewIn_fd p p1 f hset STDOUT_FILENO hopen
        simp only [STDOUT_FILENO, STDIN_FILENO, if_neg (by decide : ¬ (1 = 0))] at h1
        have := ih p1 p' h (by rw [STDOUT_FILENO, h1]; exact hopen)
        rw [this, lastOutput]
        cases lastOutput rs <;> simp [STDOUT_FILENO, h1]
      | exit st => rw [hset] at h; exact absurd h (by simp)
      | fault => rw [hset] at h; exact absurd h (by simp)
      | timeout => rw [hset] at h; exact absurd h (by simp)
    | output f =>
      simp only [applyRedirs] at h
      cases hset : setNewOut p f with
      | ret p1 =>
        rw [hset] at h
        have h1 := setNewOut_fd p p1 f hset STDOUT_FILENO hopen
        simp only [if_true] at h1
        have := ih p1 p' h (by rw [h1]; simp)
        rw [this, lastOutput]
        cases lastOutput rs <;> simp [h1, Option.orElse]
      | exit st => rw [hset] at h; exact absurd h (by simp)
      | fault => rw [hset] at h; exact absurd h (by simp)
      | timeout => rw [hset] at h; exact absurd h (by simp)

theorem redirect_spec (junk : Nat → Cell) (argv : Cells) (c : CStr) (ts : List CStr)
    (p : Proc) (hvec : IsVec argv (c :: ts)) (hc : c ≠ tokOut)
    (hlen : argv.length < SIZE_MOD) :
    (redirect junk argv p).map (fun r => (tokensOf r.1, r.2))
      = (applyRedirs (redirPairs ts) p).map (fun p' => (c :: stripRedirs ts, p')) := by
  obtain ⟨post, rfl⟩ := hvec
  have := redirectLoop_spec junk (2 * (vec (c :: ts) post).length + 1) ts [] c post p
    (by rw [length_vec]; simp; omega) (Or.inl hc) hlen
  simpa [redirect, vec] using this

/-! ## Claims on the tokenizer and the redirection rewriter -/

/-- C1: when its allocations succeed, `parse` returns the vector made of the
maximal non-empty runs of non-delimiter characters of the line, in
left-to-right order, followed by the `NULL` sentinel; through `parseLine` a
line of tokens separated by one or more spaces (and ended by a newline) yields
exactly those tokens in order; a line made only of delimiters yields the
sentinel-only vector. -/
theorem parse_maximal_runs (junk : Nat → Cell) (alloc : Nat → Bool)
    (halloc : ∀ k, alloc k = true) (line delim : CStr) :
    parse junk alloc line delim = .ret (some ((tokenRuns delim line).map some ++ [none]))
    ∧ (∀ (t0 : CStr) (rest : List (Nat × CStr)),
        (t0 ≠ [] ∧ ' ' ∉ t0 ∧ '\n' ∉ t0) →
        (∀ q ∈ rest, q.2 ≠ [] ∧ ' ' ∉ q.2 ∧ '\n' ∉ q.2) →
        parseLine junk alloc (spacedLine t0 rest ++ ['\n'])
          = .ret (some ((t0 :: rest.map Prod.snd).map some ++ [none])))
    ∧ ((∀ c ∈ line, c ∈ delim) → parse junk alloc line delim = .ret (some [none])) := by
  refine ⟨parse_spec junk alloc halloc line delim, ?_, ?_⟩
  · intro t0 rest h0 hrest
    have hnl : '\n' ∉ spacedLine t0 rest := by
      unfold spacedLine
      simp only [List.mem_append, List.mem_flatten, List.mem_map, not_or]
      refine ⟨h0.2.2, ?_⟩
      rintro ⟨l, ⟨q, hq, rfl⟩, hmem⟩
      simp only [List.mem_append, List.mem_replicate] at hmem
      rcases hmem with h | h
      · exact absurd h.2 (by decide)
      · exact (hrest q hq).2.2 h
    unfold parseLine
    rw [take_strcspn_newline _ hnl, parse_spec junk alloc halloc,
      tokenRuns_spacedLine t0 rest ⟨h0.1, h0.2.1⟩
        (fun q hq => ⟨(hrest q hq).1, (hrest q hq).2.1⟩)]
  · intro hall
    rw [parse_spec junk alloc halloc, tokenRuns_all_delim delim line hall]
    rfl

/-- Witness for C1: the line `ls  -l` (two spaces) with the delimiter set of one space. -/
theorem parse_maximal_runs_witness :
    parse (fun _ => none) (fun _ => true) ['l', 's', ' ', ' ', '-', 'l'] [' ']
      = .ret (some [some ['l', 's'], some ['-', 'l'], none]) := by
  have h := (parse_maximal_runs (fun _ => none) (fun _ => true) (fun _ => rfl)
    ['l', 's', ' ', ' ', '-', 'l'] [' ']).1
  rw [h]
  decide

/-- C2: for a sentinel-terminated vector whose token 0 is not a redirection
marker, `redirect` performs the rebindings of the redirection pairs in
left-to-right order and, when all of them succeed, returns with a vector that
reads, up to its first sentinel, as token 0 followed by the other tokens with
every pair removed; the file of the last `>` pair is then the standard output. -/
theorem redirect_removes_pairs (junk : Nat → Cell) (argv : Cells) (c : CStr)
    (ts : List CStr) (p : Proc) (hvec : IsVec argv (c :: ts))
    (hc : c ≠ tokIn ∧ c ≠ tokOut) (hlen : argv.length < SIZE_MOD) :
    (redirect junk argv p).map (fun r => (tokensOf r.1, r.2))
      = (applyRedirs (redirPairs ts) p).map (fun q => (c :: stripRedirs ts, q))
    ∧ (∀ (argv1 : Cells) (p1 : Proc) (f : CStr),
        redirect junk argv p = .ret (argv1, p1) →
        fdGet p STDOUT_FILENO ≠ none →
        lastOutput (redirPairs ts) = some f →
        fdGet p1 STDOUT_FILENO = some (Obj.file f (O_CREAT ||| O_WRONLY))) := by
  have hmain := redirect_spec junk argv c ts p hvec hc.2 hlen
  refine ⟨hmain, ?_⟩
  intro argv1 p1 f hret hopen hlast
  rw [hret] at hmain
  cases happ : applyRedirs (redirPairs ts) p with
  | ret q =>
    rw [happ] at hmain
    simp only [Run.map_ret] at hmain
    injection hmain with hmain
    injection hmain with _ hq
    have := applyRedirs_stdout (redirPairs ts) p q happ hopen
    rw [hlast] at this
    rw [hq]
    exact this
  | exit s => rw [happ] at hmain; simp [Run.map, Run.bind] at hmain
  | fault => rw [happ] at hmain; simp [Run.map, Run.bind] at hmain
  | timeout => rw [happ] at hmain; simp [Run.map, Run.bind] at hmain

/-- Witness for C2: `cmd < in > out` becomes `cmd`, with standard input and
output rebound to the two files. -/
theorem redirect_removes_pairs_witness :
    (redirect (fun _ => some ['?'])
        [some ['c', 'm', 'd'], some ['<'], some ['i', 'n'], some ['>'], some ['o', 'u', 't'], none]
        ⟨[(['i', 'n'], ⟨['x'], 420, 1000, 1000⟩)], [some Obj.tty, some Obj.tty, some Obj.tty, none], 0, 18, 1000, 1000, []⟩).map
      (fun r => (tokensOf r.1, r.2))
    = .ret ([['c', 'm', 'd']],
        ⟨[(['i', 'n'], ⟨['x'], 420, 1000, 1000⟩), (['o', 'u', 't'], ⟨[], 420, 1000, 1000⟩)],
         [some (Obj.file ['i', 'n'] 0), some (Obj.file ['o', 'u', 't'] 65), some Obj.tty, none],
         0, 18, 1000, 1000, []⟩) :=
  (redirect_removes_pairs (fun _ => some ['?'])
    [some ['c', 'm', 'd'], some ['<'], some ['i', 'n'], some ['>'], some ['o', 'u', 't'], none]
    ['c', 'm', 'd'] [['<'], ['i', 'n'], ['>'], ['o', 'u', 't']]
    ⟨[(['i', 'n'], ⟨['x'], 420, 1000, 1000⟩)], [some Obj.tty, some Obj.tty, some Obj.tty, none], 0, 18, 1000, 1000, []⟩
    ⟨[], rfl⟩ (by decide) (by decide)).1.trans (by decide)

/-! ## Opening the redirection files -/

theorem sysOpen_denied (p : Proc) (path : CStr) (flags mode : Nat) (old : File)
    (hfile : lookupFile p.files path = some old) (hdeny : mayOpen p old flags = false) :
    sysOpen p path flags mode = none := by
  unfold sysOpen
  cases lowestFree p.fds with
  | none => rfl
  | some i => simp [hfile, hdeny]

/-- C8, the code at the failing input: a bare newline makes `shellLoop` return
`SHELL_CONTINUE` without dispatching, but a line of one or more spaces before
the newline is tokenized into the sentinel-only vector and `shellLoop` then
evaluates `strcmp(argv[0], "exit")` on `argv[0] == NULL`: an invalid access,
not a return. -/
theorem shellLoop_spaces_only_faults (o : Oracle) (sh : Shell) (k : Nat)
    (halloc : ∀ n, o.allocParse n = true) :
    shellLoop o (some ['\n']) sh = .ret (SHELL_CONTINUE, Dispatch.nothing, sh)
    ∧ parseLine o.junk o.allocParse (List.replicate (k + 1) ' ' ++ ['\n']) = .ret (some [none])
    ∧ shellLoop o (some (List.replicate (k + 1) ' ' ++ ['\n'])) sh = .fault := by
  have hparse : parseLine o.junk o.allocParse (List.replicate (k + 1) ' ' ++ ['\n'])
      = .ret (some [none]) := by
    unfold parseLine
    rw [take_strcspn_newline _ (by simp), parse_spec o.junk o.allocParse halloc,
      tokenRuns_all_delim _ _ (by simp)]
    rfl
  refine ⟨by simp [shellLoop], hparse, ?_⟩
  unfold shellLoop
  have hhead : (List.replicate (k + 1) ' ' ++ ['\n']).head? ≠ some '\n' := by
    simp [List.replicate_succ]
  simp only [hhead, if_false, hparse, Run.ret_bind]
  rfl

/-- Witness for C8: the line made of one space and the newline. -/
theorem shellLoop_spaces_only_faults_witness :
    shellLoop ⟨fun _ => none, fun _ => none, fun _ => true, fun _ => true, fun _ => none,
        fun _ => none, none, none, 4096⟩ (some [' ', '\n'])
      ⟨0, false, ⟨[], [some Obj.tty, some Obj.tty, some Obj.tty], 0, 18, 1000, 1000, []⟩, []⟩ = .fault :=
  (shellLoop_spaces_only_faults ⟨fun _ => none, fun _ => none, fun _ => true, fun _ => true,
      fun _ => none, fun _ => none, none, none, 4096⟩
    ⟨0, false, ⟨[], [some Obj.tty, some Obj.tty, some Obj.tty], 0, 18, 1000, 1000, []⟩, []⟩ 0 (fun _ => rfl)).2.2

/-! ## Single commands -/

theorem segmentsFrom_head (todo : List CStr) :
    ∀ cur : List CStr, ∃ s ∈ segmentsFrom cur todo, cur.length ≤ s.length := by
  induction todo with
  | nil => intro cur; exact ⟨cur, by simp [segmentsFrom], le_refl _⟩
  | cons t todo ih =>
    intro cur
    by_cases ht : t = tokPipe
    · exact ⟨cur, by simp [segmentsFrom, ht], le_refl _⟩
    · obtain ⟨s, hs, hl⟩ := ih (cur ++ [t])
      refine ⟨s, by simpa [segmentsFrom, ht] using hs, ?_⟩
      simp at hl
      omega

theorem segmentsFrom_length (todo : List CStr) :
    ∀ cur : List CStr, (segmentsFrom cur todo).length = todo.count tokPipe + 1 := by
  induction todo with
  | nil => intro cur; simp [segmentsFrom]
  | cons t todo ih =>
    intro cur
    by_cases ht : t = tokPipe
    · simp [segmentsFrom, ht, ih]
    · simp [segmentsFrom, ht, ih, List.count_cons, Ne.symm ht]

theorem segmentsFrom_no_pipe (todo : List CStr) :
    ∀ cur : List CStr, tokPipe ∉ cur → ∀ s ∈ segmentsFrom cur todo, tokPipe ∉ s := by
  induction todo with
  | nil =>
    intro cur hc s hs
    simp [segmentsFrom] at hs
    subst hs
    exact hc
  | cons t todo ih =>
    intro cur hc s hs
    by_cases ht : t = tokPipe
    · simp only [segmentsFrom, ht, if_true, List.mem_cons] at hs
      rcases hs with h | h
      · subst h; exact hc
      · exact ih [] (by simp) s h
    · simp only [segmentsFrom, ht, if_false] at hs
      exact ih (cur ++ [t]) (by simp [hc, Ne.symm ht]) s hs

theorem segmentsFrom_intercalate (todo : List CStr) :
    ∀ cur : List CStr, List.intercalate [tokPipe] (segmentsFrom cur todo) = cur ++ todo := by
  induction todo with
  | nil => intro cur; simp [segmentsFrom, List.intercalate]
  | cons t todo ih =>
    intro cur
    by_cases ht : t = tokPipe
    · have h1 := ih []
      have hne : segmentsFrom [] todo ≠ [] := by
        intro h
        have := segmentsFrom_length todo []
        rw [h] at this
        simp at this
      obtain ⟨s, ss, hss⟩ := List.exists_cons_of_ne_nil hne
      rw [hss] at h1
      simp only [segmentsFrom, ht, if_true, hss]
      simp only [List.intercalate, List.intersperse_cons_cons, List.flatten_cons] at h1 ⊢
      rw [h1]
      simp
    · simp only [segmentsFrom, ht, if_false]
      rw [ih]
      simp

/-! ## splitArgv -/

theorem splitCount_spec (junk : Nat → Cell) (post : Cells) :
    ∀ (todo done : List CStr) (fuel n : Nat), todo.length + 1 ≤ fuel →
      splitCount junk (vec (done ++ todo) post) fuel done.length n
        = .ret (n + todo.count tokPipe) := by
  intro todo
  induction todo with
  | nil =>
    intro done fuel n hf
    obtain ⟨k, rfl⟩ : ∃ k, fuel = k + 1 := ⟨fuel - 1, by simp at hf; omega⟩
    simp [splitCount, load_vec_end]
  | cons t todo ih =>
    intro done fuel n hf
    obtain ⟨k, rfl⟩ : ∃ k, fuel = k + 1 := ⟨fuel - 1, by simp at hf; omega⟩
    have hi := fun m => ih (done ++ [t]) k m (by simp at hf ⊢; omega)
    simp only [List.append_assoc, List.singleton_append, List.length_append,
      List.length_singleton] at hi
    rw [splitCount, load_vec_mid]
    simp only [hi]
    by_cases ht : t = tokPipe
    · simp [ht]; omega
    · simp [ht, List.count_cons, Ne.symm ht]

theorem storeStage_at (junkS : Nat → Option Cells) (pre : Stages) (cur : List CStr)
    (f0 : Cell) (free : Cells) (rest : Stages) (v : Cell) :
    storeStage junkS (pre ++ some (cur.map some ++ f0 :: free) :: rest) pre.length cur.length v
      = .ret (pre ++ some (cur.map some ++ v :: free) :: rest) := by
  have h1 := store_cells_at (cur.map some) f0 free v
  simp only [List.length_map] at h1
  simp only [storeStage, load_cells_at, h1, store_cells_at]

theorem length_mallocCells {α : Type} (junk : Nat → α) (n : Nat) :
    (mallocCells junk n).length = n := by
  simp [mallocCells]

theorem splitLoop_spec (junk : Nat → Cell) (junkS : Nat → Option Cells) (alloc : Nat → Bool)
    (PATH_MAX : Nat) (halloc : ∀ k, alloc k = true) (post : Cells) :
    ∀ (todo done cur : List CStr) (free : Cells) (closed : List Cells) (freeOuter : Stages)
      (fuel : Nat),
      todo.length + 1 ≤ fuel →
      (cur.map some ++ free).length = PATH_MAX →
      (∀ s ∈ segmentsFrom cur todo, s.length < PATH_MAX) →
      todo.count tokPipe + 1 ≤ freeOuter.length →
      ∃ bufs post', splitLoop junk junkS alloc PATH_MAX (vec (done ++ todo) post) fuel
          done.length (closed.map some ++ some (cur.map some ++ free) :: freeOuter)
          closed.length cur.length
          = .ret (some ((closed ++ bufs).map some ++ none :: post'))
        ∧ List.Forall₂ IsVec bufs (segmentsFrom cur todo) := by
  intro todo
  induction todo with
  | nil =>
    intro done cur free closed freeOuter fuel hf hsize hcap hout
    obtain ⟨k, rfl⟩ : ∃ k, fuel = k + 1 := ⟨fuel - 1, by simp at hf; omega⟩
    have hcur := hcap cur (by simp [segmentsFrom])
    obtain ⟨f0, free', rfl⟩ : ∃ f0 free', free = f0 :: free' := by
      cases free with
      | nil => simp at hsize; omega
      | cons a b => exact ⟨a, b, rfl⟩
    obtain ⟨o0, fo', rfl⟩ : ∃ o0 fo', freeOuter = o0 :: fo' := by
      cases freeOuter with
      | nil => simp at hout
      | cons a b => exact ⟨a, b, rfl⟩
    refine ⟨[cur.map some ++ none :: free'], fo', ?_, ?_⟩
    · have hs := storeStage_at junkS (closed.map some) cur f0 free' (o0 :: fo') none
      have hst := store_cells_at1 (closed.map some) (some (cur.map some ++ none :: free')) o0
        fo' none
      simp only [List.length_map] at hs hst
      rw [splitLoop]
      simp only [List.append_nil, load_vec_end, hs, Run.ret_bind, hst]
      simp
    · simp only [segmentsFrom]
      exact List.Forall₂.cons ⟨free', rfl⟩ List.Forall₂.nil
  | cons t todo ih =>
    intro done cur free closed freeOuter fuel hf hsize hcap hout
    obtain ⟨k, rfl⟩ : ∃ k, fuel = k + 1 := ⟨fuel - 1, by simp at hf; omega⟩
    obtain ⟨s0, hs0, hs0len⟩ := segmentsFrom_head (t :: todo) cur
    have hroom := hcap s0 hs0
    obtain ⟨f0, free', rfl⟩ : ∃ f0 free', free = f0 :: free' := by
      cases free with
      | nil => simp at hsize; omega
      | cons a b => exact ⟨a, b, rfl⟩
    have hload := load_vec_mid junk done t todo post
    by_cases ht : t = tokPipe
    · obtain ⟨o0, fo', rfl⟩ : ∃ o0 fo', freeOuter = o0 :: fo' := by
        cases freeOuter with
        | nil => simp at hout
        | cons a b => exact ⟨a, b, rfl⟩
      have hs := storeStage_at junkS (closed.map some) cur f0 free' (o0 :: fo') none
      have hst := store_cells_at1 (closed.map some) (some (cur.map some ++ none :: free')) o0
        fo' (some (mallocCells junk PATH_MAX))
      simp only [List.length_map] at hs hst
      obtain ⟨bufs, post', h1, h2⟩ := ih (done ++ [t]) [] (mallocCells junk PATH_MAX)
        (closed ++ [cur.map some ++ none :: free']) fo' k (by simp at hf ⊢; omega)
        (by simp [length_mallocCells])
        (by intro s hs; exact hcap s (by simp [segmentsFrom, ht, hs]))
        (by simp [ht] at hout; omega)
      refine ⟨(cur.map some ++ none :: free') :: bufs, post', ?_, ?_⟩
      · rw [splitLoop, hload]
        simp only [ht, if_true, hs, Run.ret_bind, halloc, hst]
        simp only [List.append_assoc, List.singleton_append, List.length_append,
          List.length_singleton, List.map_append, List.map_cons, List.map_nil,
          List.nil_append, List.length_nil] at h1
        simp only [Bool.true_eq_false, if_false]
        rw [← ht, h1]
        simp
      · simp only [segmentsFrom, ht, if_true]
        exact List.Forall₂.cons ⟨free', rfl⟩ h2
    · have hs := storeStage_at junkS (closed.map some) cur f0 free' freeOuter (some t)
      simp only [List.length_map] at hs
      obtain ⟨bufs, post', h1, h2⟩ := ih (done ++ [t]) (cur ++ [t]) free' closed freeOuter k
        (by simp at hf ⊢; omega)
        (by simp at hsize ⊢; omega)
        (by intro s hs; exact hcap s (by simpa [segmentsFrom, ht] using hs))
        (by simp [List.count_cons, Ne.symm ht] at hout; omega)
      refine ⟨bufs, post', ?_, ?_⟩
      · rw [splitLoop, hload]
        simp only [ht, if_false, hs, Run.ret_bind]
        simp only [List.append_assoc, List.singleton_append, List.length_append,
          List.length_singleton, List.map_append, List.map_cons, List.map_nil] at h1 ⊢
        exact h1
      · simpa [segmentsFrom, ht] using h2

theorem splitArgv_segments (junk : Nat → Cell) (junkS : Nat → Option Cells)
    (alloc : Nat → Bool) (PATH_MAX : Nat) (argv : Cells) (ts : List CStr)
    (hvec : IsVec argv ts) (halloc : ∀ k, alloc k = true)
    (hcap : ∀ s ∈ segments ts, s.length < PATH_MAX) :
    ∃ bufs post, splitArgv junk junkS alloc PATH_MAX argv
        = .ret (some (bufs.map some ++ none :: post))
      ∧ List.Forall₂ IsVec bufs (segments ts) := by
  obtain ⟨post, rfl⟩ := hvec
  have hcount := splitCount_spec junk post ts [] ((vec ts post).length + 1) 1
    (by rw [length_vec]; omega)
  obtain ⟨s0, hs0, _⟩ := segmentsFrom_head ts []
  have hpos : 0 < PATH_MAX := by have := hcap s0 hs0; omega
  obtain ⟨m0, mrest, hm⟩ : ∃ m0 mrest, mallocCells junkS (1 + ts.count tokPipe + 1)
      = m0 :: mrest := by
    cases h : mallocCells junkS (1 + ts.count tokPipe + 1) with
    | nil =>
      have := length_mallocCells junkS (1 + ts.count tokPipe + 1)
      rw [h] at this
      simp at this
    | cons a b => exact ⟨a, b, rfl⟩
  have hmlen : mrest.length = ts.count tokPipe + 1 := by
    have := length_mallocCells junkS (1 + ts.count tokPipe + 1)
    rw [hm] at this
    simp at this
    omega
  obtain ⟨bufs, post', h1, h2⟩ := splitLoop_spec junk junkS alloc PATH_MAX halloc post ts []
    [] (mallocCells junk PATH_MAX) [] mrest ((vec ts post).length + 1)
    (by rw [length_vec]; omega) (by simp [length_mallocCells]) hcap (by omega)
  refine ⟨bufs, post', ?_, h2⟩
  simp only [List.nil_append, List.length_nil, List.map_nil] at hcount h1
  have hstore : store (m0 :: mrest) 0 (some (mallocCells junk PATH_MAX))
      = some (some (mallocCells junk PATH_MAX) :: mrest) := by
    simp [store]
  unfold splitArgv
  simp only [vec] at hcount h1 ⊢
  simp only [hcount, Run.ret_bind, halloc, hm, hstore]
  simpa using h1

/-! ## Pipes and descriptors -/

theorem count_none_set (fds : List (Option Obj)) (i : Nat) (o : Obj)
    (h : fds[i]? = some none) :
    (fds.set i (some o)).count none + 1 = fds.count none := by
  induction fds generalizing i with
  | nil => simp at h
  | cons a rest ih =>
    cases i with
    | zero =>
      simp only [List.getElem?_cons_zero, Option.some.injEq] at h
      subst h
      simp
    | succ i =>
      simp only [List.getElem?_cons_succ] at h
      have := ih i h
      simp only [List.set_cons_succ, List.count_cons]
      omega

theorem lowestFree_some (fds : List (Option Obj)) (h : 0 < freeCount fds) :
    ∃ i, lowestFree fds = some i := by
  have hex : ∃ x ∈ fds, (fun o : Option Obj => o.isNone) x = true := by
    refine ⟨none, ?_, rfl⟩
    exact List.count_pos_iff.mp h
  have := List.findIdx_lt_length_of_exists hex
  exact ⟨fds.findIdx (fun o => o.isNone), by simp [lowestFree, this]⟩

theorem sysPipe_spec (p : Proc) (h : 2 ≤ freeCount p.fds) :
    ∃ r w p1, sysPipe p = some (r, w, p1) ∧ r ≠ w ∧ fdGet p r = none ∧ fdGet p w = none
      ∧ p1.files = p.files ∧ p1.pipes = p.pipes + 1 ∧ p1.fds.length = p.fds.length
      ∧ freeCount p1.fds + 2 = freeCount p.fds
      ∧ fdGet p1 r = some (Obj.pipeRd p.pipes) ∧ fdGet p1 w = some (Obj.pipeWr p.pipes)
      ∧ (∀ fd, fd ≠ r → fd ≠ w → fdGet p1 fd = fdGet p fd) := by
  obtain ⟨r, hr⟩ := lowestFree_some p.fds (by omega)
  obtain ⟨hrlt, hrnone⟩ := lowestFree_spec _ _ hr
  have hc1 := count_none_set p.fds r (Obj.pipeRd p.pipes) hrnone
  obtain ⟨w, hw⟩ := lowestFree_some (p.fds.set r (some (Obj.pipeRd p.pipes)))
    (by unfold freeCount at h ⊢; omega)
  obtain ⟨hwlt, hwnone⟩ := lowestFree_spec _ _ hw
  have hc2 := count_none_set _ w (Obj.pipeWr p.pipes) hwnone
  have hrw : r ≠ w := by
    intro e
    subst e
    rw [List.getElem?_set] at hwnone
    simp [hrlt] at hwnone
  have hwnone' : p.fds[w]? = some none := by
    rw [List.getElem?_set] at hwnone
    simpa [hrw] using hwnone
  simp only [List.length_set] at hwlt
  refine ⟨r, w, { p with fds := (p.fds.set r (some (Obj.pipeRd p.pipes))).set w (some (Obj.pipeWr p.pipes)), pipes := p.pipes + 1 },
    by simp only [sysPipe, hr, hw], hrw, ?_, ?_,
    rfl, rfl, by simp, ?_, ?_, ?_, ?_⟩
  · rw [fdGet_eq, hrnone]; rfl
  · rw [fdGet_eq, hwnone']; rfl
  · simp only [freeCount] at h ⊢; omega
  · rw [fdGet_eq]
    simp [List.getElem?_set, hrw, Ne.symm hrw, hrlt]
  · rw [fdGet_eq]
    simp [List.getElem?_set, hwlt]
  · intro fd h1 h2
    rw [fdGet_eq, fdGet_eq]
    simp [List.getElem?_set, Ne.symm h1, Ne.symm h2]

theorem pipeEnd_shift (base j : Nat) : pipeEnd (base + 1) j = pipeEnd base (j + 2) := by
  unfold pipeEnd
  have h1 : (j + 2) % 2 = j % 2 := by omega
  have h2 : (j + 2) / 2 = j / 2 + 1 := by omega
  rw [h1, h2]
  have h3 : base + 1 + j / 2 = base + (j / 2 + 1) := by omega
  rw [h3]

theorem makePipes_spec :
    ∀ (n : Nat) (p : Proc) (acc : List Nat) (tr : List Sys), 2 * n ≤ freeCount p.fds →
      ∃ p' new, makePipes n p acc tr = (true, p', acc ++ new, tr ++ pipeEvents new)
        ∧ new.length = 2 * n ∧ p'.files = p.files ∧ p'.pipes = p.pipes + n
        ∧ p'.fds.length = p.fds.length
        ∧ (∀ j, j < 2 * n → fdGet p' (new.getD j 0) = some (pipeEnd p.pipes j))
        ∧ (∀ fd ∈ new, fdGet p fd = none)
        ∧ (∀ fd, fd ∉ new → fdGet p' fd = fdGet p fd) := by
  intro n
  induction n with
  | zero =>
    intro p acc tr _
    exact ⟨p, [], by simp [makePipes, pipeEvents], rfl, rfl, rfl, rfl, by intro j hj; omega,
      by simp, by simp⟩
  | succ n ih =>
    intro p acc tr hfree
    obtain ⟨r, w, p1, hpipe, hrw, hr, hw, hfiles, hpipes, hlen, hcount, hgr, hgw, hother⟩ :=
      sysPipe_spec p (by omega)
    obtain ⟨p', new, hmk, hnlen, hf', hp', hl', hends, hfreeNew, hkeep⟩ :=
      ih p1 (acc ++ [r, w]) (tr ++ [Sys.pipe r w]) (by omega)
    have hrnot : r ∉ new := by
      intro hmem
      have := hfreeNew r hmem
      rw [hgr] at this
      exact absurd this (by simp)
    have hwnot : w ∉ new := by
      intro hmem
      have := hfreeNew w hmem
      rw [hgw] at this
      exact absurd this (by simp)
    refine ⟨p', r :: w :: new, ?_, by simp [hnlen]; omega, by rw [hf', hfiles],
      by rw [hp', hpipes]; omega, by rw [hl', hlen], ?_, ?_, ?_⟩
    · rw [makePipes, hpipe]
      simp only [hmk, pipeEvents, List.append_assoc, List.cons_append, List.nil_append]
    · intro j hj
      match j with
      | 0 =>
        simp only [List.getD_cons_zero]
        rw [hkeep r hrnot, hgr]
        simp [pipeEnd]
      | 1 =>
        simp only [List.getD_cons_succ, List.getD_cons_zero]
        rw [hkeep w hwnot, hgw]
        simp [pipeEnd]
      | j + 2 =>
        simp only [List.getD_cons_succ]
        rw [hends j (by omega), hpipes, pipeEnd_shift]
    · intro fd hmem
      simp only [List.mem_cons] at hmem
      rcases hmem with h | h | h
      · rw [h]; exact hr
      · rw [h]; exact hw
      · have h1 := hfreeNew fd h
        have hne1 : fd ≠ r := fun e => hrnot (e ▸ h)
        have hne2 : fd ≠ w := fun e => hwnot (e ▸ h)
        rw [← hother fd hne1 hne2]
        exact h1
    · intro fd hnot
      simp only [List.mem_cons, not_or] at hnot
      rw [hkeep fd hnot.2.2, hother fd hnot.1 hnot.2.1]

theorem fdGet_sysClose (p : Proc) (c fd : Nat) :
    fdGet (sysClose p c) fd = if c = fd then none else fdGet p fd := by
  have := fdGet_set p (sysClose p c) c fd none rfl
  rw [this]
  by_cases h : c = fd
  · subst h
    by_cases hl : c < p.fds.length
    · simp [hl]
    · simp [hl, fdGet, hl]
  · simp [h]

theorem fdGet_foldl_close (fds : List Nat) :
    ∀ (p : Proc) (fd : Nat),
      fdGet (fds.foldl sysClose p) fd = if fd ∈ fds then none else fdGet p fd := by
  induction fds with
  | nil => intro p fd; simp
  | cons c rest ih =>
    intro p fd
    simp only [List.foldl_cons, ih, fdGet_sysClose, List.mem_cons]
    by_cases h1 : fd ∈ rest
    · simp [h1]
    · by_cases h2 : c = fd
      · simp [h1, h2]
      · simp [h1, h2, Ne.symm h2]

theorem foldl_doClose (fds : List Nat) :
    ∀ (p : Proc) (tr : List Sys),
      fds.foldl doClose (p, tr) = (fds.foldl sysClose p, tr ++ fds.map Sys.close) := by
  induction fds with
  | nil => intro p tr; simp
  | cons c rest ih =>
    intro p tr
    simp only [List.foldl_cons, doClose, ih, List.map_cons, List.append_assoc,
      List.singleton_append]

theorem range_map_getD (fds : List Nat) :
    (List.range fds.length).map (fun j => fds.getD j 0) = fds := by
  apply List.ext_getElem
  · simp
  · intro i h1 h2
    simp [List.getD_eq_getElem?_getD, List.getElem?_eq_getElem h2]

theorem closeAll_eq (p : Proc) (tr : List Sys) (fds : List Nat) (n : Nat)
    (hlen : fds.length = 2 * (n - 1)) :
    closeAll (p, tr) fds n = (fds.foldl sysClose p, tr ++ fds.map Sys.close) := by
  unfold closeAll
  rw [← hlen]
  have h := List.foldl_map (fun j => fds.getD j 0) doClose (List.range fds.length) (p, tr)
  rw [range_map_getD] at h
  rw [← h, foldl_doClose]

theorem getD_mem (fds : List Nat) (j : Nat) (h : j < fds.length) : fds.getD j 0 ∈ fds := by
  rw [List.getD_eq_getElem?_getD, List.getElem?_eq_getElem h]
  exact List.getElem_mem h

theorem doDup2_fst (p : Proc) (tr : List Sys) (oldfd newfd : Nat) (o : Obj)
    (hold : fdGet p oldfd = some o) (hnew : newfd < p.fds.length) :
    doDup2 (p, tr) oldfd newfd
      = ({ p with fds := p.fds.set newfd (some o) }, tr ++ [Sys.dup2 oldfd newfd]) := by
  simp [doDup2, sysDup2, hold, hnew]

theorem fdGet_dup (p : Proc) (newfd fd : Nat) (o : Obj) (hnew : newfd < p.fds.length) :
    fdGet { p with fds := p.fds.set newfd (some o) } fd
      = if newfd = fd then some o else fdGet p fd := by
  have := fdGet_set p { p with fds := p.fds.set newfd (some o) } newfd fd (some o) rfl
  rw [this]
  simp [hnew]

theorem pipeEnd_read (base i : Nat) : pipeEnd base (2 * i) = Obj.pipeRd (base + i) := by
  simp [pipeEnd]

theorem pipeEnd_write (base i : Nat) : pipeEnd base (2 * i + 1) = Obj.pipeWr (base + i) := by
  unfold pipeEnd
  have h1 : (2 * i + 1) % 2 = 1 := by omega
  have h2 : (2 * i + 1) / 2 = i := by omega
  simp [h1, h2]

theorem pipeChild_spec (junkS : Nat → Option Cells) (argvs : Stages) (fds : List Nat)
    (n i : Nat) (p : Proc) (base : Nat) (hlen : fds.length = 2 * (n - 1)) (hi : i < n)
    (hends : ∀ j, j < 2 * (n - 1) → fdGet p (fds.getD j 0) = some (pipeEnd base j))
    (h0 : STDIN_FILENO ∉ fds) (h1 : STDOUT_FILENO ∉ fds) (hl : 2 ≤ p.fds.length) :
    (pipeChild junkS argvs fds n i p).stage = i
    ∧ (pipeChild junkS argvs fds n i p).argv = load junkS argvs i
    ∧ (pipeChild junkS argvs fds n i p).trace = childCalls fds n i
    ∧ (0 < i → fdGet (pipeChild junkS argvs fds n i p).proc STDIN_FILENO
        = some (Obj.pipeRd (base + (i - 1))))
    ∧ (i < n - 1 → fdGet (pipeChild junkS argvs fds n i p).proc STDOUT_FILENO
        = some (Obj.pipeWr (base + i)))
    ∧ (∀ fd ∈ fds, fdGet (pipeChild junkS argvs fds n i p).proc fd = none) := by
  refine ⟨rfl, rfl, ?_⟩
  have hl0 : 0 < p.fds.length := by omega
  have hl1 : 1 < p.fds.length := by omega
  by_cases hpos : 0 < i
  · have hin := hends (2 * (i - 1)) (by omega)
    rw [pipeEnd_read] at hin
    have hd1 := doDup2_fst p [] (fds.getD (2 * (i - 1)) 0) STDIN_FILENO _ hin
      (by simp [STDIN_FILENO]; omega)
    by_cases hlast : i < n - 1
    · have hout := hends (2 * i + 1) (by omega)
      rw [pipeEnd_write] at hout
      have hmem : fds.getD (2 * i + 1) 0 ∈ fds := getD_mem fds _ (by omega)
      have hne : STDIN_FILENO ≠ fds.getD (2 * i + 1) 0 := fun e => h0 (e ▸ hmem)
      have hout' := fdGet_dup p STDIN_FILENO (fds.getD (2 * i + 1) 0)
        (Obj.pipeRd (base + (i - 1))) (by simp [STDIN_FILENO]; omega)
      rw [if_neg hne, hout] at hout'
      have hd2 := doDup2_fst _ ([] ++ [Sys.dup2 (fds.getD (2 * (i - 1)) 0) STDIN_FILENO])
        (fds.getD (2 * i + 1) 0) STDOUT_FILENO _ hout' (by simp [STDOUT_FILENO]; omega)
      simp only [pipeChild, hpos, hlast, if_true, hd1, hd2, closeAll_eq _ _ fds n hlen,
        childCalls, fdGet_foldl_close]
      refine ⟨by simp, ?_, ?_, ?_⟩
      · intro _
        simp only [h0, if_false]
        rw [fdGet_eq]
        simp [List.getElem?_set, STDIN_FILENO, STDOUT_FILENO, hl0]
      · intro _
        simp only [h1, if_false]
        rw [fdGet_eq]
        simp [List.getElem?_set, STDIN_FILENO, STDOUT_FILENO, hl1]
      · intro fd hfd
        simp [hfd]
    · simp only [pipeChild, hpos, hlast, if_true, if_false, hd1, closeAll_eq _ _ fds n hlen,
        childCalls, fdGet_foldl_close]
      refine ⟨by simp, ?_, ?_, ?_⟩
      · intro _
        simp only [h0, if_false]
        rw [fdGet_eq]
        simp [List.getElem?_set, STDIN_FILENO, STDOUT_FILENO, hl0]
      · intro h; exact h.elim
      · intro fd hfd
        simp [hfd]
  · by_cases hlast : i < n - 1
    · have hout := hends (2 * i + 1) (by omega)
      rw [pipeEnd_write] at hout
      have hd2 := doDup2_fst p [] (fds.getD (2 * i + 1) 0) STDOUT_FILENO _ hout
        (by simp [STDOUT_FILENO]; omega)
      simp only [pipeChild, hpos, hlast, if_true, if_false, hd2, closeAll_eq _ _ fds n hlen,
        childCalls, fdGet_foldl_close]
      refine ⟨by simp, ?_, ?_, ?_⟩
      · intro h; exact h.elim
      · intro _
        simp only [h1, if_false]
        rw [fdGet_eq]
        simp [List.getElem?_set, STDIN_FILENO, STDOUT_FILENO, hl1]
      · intro fd hfd
        simp [hfd]
    · simp only [pipeChild, hpos, hlast, if_false, closeAll_eq _ _ fds n hlen,
        childCalls, fdGet_foldl_close]
      refine ⟨by simp, ?_, ?_, ?_⟩
      · intro h; exact h.elim
      · intro h; exact h.elim
      · intro fd hfd
        simp [hfd]

/-! ## pipeCalled -/

theorem forkLoop_spec (junkS : Nat → Option Cells) (fork : Nat → Option Nat) (pid : Nat → Nat)
    (argvs : Stages) (fds : List Nat) (numArgv : Nat) :
    ∀ (n i : Nat) (sh : Shell) (tr : List Sys) (cs : List Child),
      (∀ k, k < n → fork (i + k) = some (pid (i + k))) →
      forkLoop junkS fork argvs fds numArgv n i sh tr cs
        = (true,
           { sh with kids := sh.kids ++ (List.range' i n).map (fun k => ⟨pid k, false⟩) },
           tr ++ (List.range' i n).map (fun k => Sys.fork (pid k)),
           cs ++ (List.range' i n).map (fun k => pipeChild junkS argvs fds numArgv k sh.proc)) := by
  intro n
  induction n with
  | zero => intro i sh tr cs _; simp [forkLoop]
  | succ n ih =>
    intro i sh tr cs hfork
    have h0 := hfork 0 (by omega)
    simp only [Nat.add_zero] at h0
    rw [forkLoop, h0]
    simp only
    rw [ih (i + 1) _ _ _ (by intro k hk; have := hfork (k + 1) (by omega); rwa [Nat.add_assoc,
      Nat.add_comm 1 k])]
    simp [List.range'_succ]

theorem waitAll_trace (wait : Nat → Option Nat) :
    ∀ (n i : Nat) (kids : List Kid) (tr : List Sys),
      (waitAll wait n i kids tr).2 = tr ++ (List.range' i n).map (fun k => Sys.wait (wait k)) := by
  intro n
  induction n with
  | zero => intro i kids tr; simp [waitAll]
  | succ n ih =>
    intro i kids tr
    rw [waitAll, ih]
    simp [List.range'_succ]

theorem hasPipeLoop_spec (junk : Nat → Cell) (post : Cells) :
    ∀ (todo done : List CStr) (fuel : Nat), todo.length + 1 ≤ fuel →
      hasPipeLoop junk (vec (done ++ todo) post) fuel done.length
        = .ret (decide (tokPipe ∈ todo)) := by
  intro todo
  induction todo with
  | nil =>
    intro done fuel hf
    obtain ⟨k, rfl⟩ : ∃ k, fuel = k + 1 := ⟨fuel - 1, by simp at hf; omega⟩
    simp [hasPipeLoop, load_vec_end]
  | cons t todo ih =>
    intro done fuel hf
    obtain ⟨k, rfl⟩ : ∃ k, fuel = k + 1 := ⟨fuel - 1, by simp at hf; omega⟩
    have hi := ih (done ++ [t]) k (by simp at hf ⊢; omega)
    simp only [List.append_assoc, List.singleton_append, List.length_append,
      List.length_singleton] at hi
    rw [hasPipeLoop, load_vec_mid]
    by_cases ht : t = tokPipe
    · simp [ht]
    · simp only [ht, if_false, hi, List.mem_cons]
      simp [Ne.symm ht]

theorem hasPipe_vec (junk : Nat → Cell) (c : CStr) (rest : List CStr) (post : Cells) :
    hasPipe junk (vec (c :: rest) post) = .ret (decide (tokPipe ∈ rest)) := by
  have := hasPipeLoop_spec junk post rest [c] ((vec (c :: rest) post).length + 1)
    (by rw [length_vec]; simp; omega)
  simpa [hasPipe] using this

theorem countStages_spec (junkS : Nat → Option Cells) (post : Stages) :
    ∀ (todo done : List Cells) (fuel : Nat), todo.length + 1 ≤ fuel →
      countStages junkS (done.map some ++ (todo.map some ++ none :: post)) fuel done.length
        = .ret (done.length + todo.length) := by
  intro todo
  induction todo with
  | nil =>
    intro done fuel hf
    obtain ⟨k, rfl⟩ : ∃ k, fuel = k + 1 := ⟨fuel - 1, by simp at hf; omega⟩
    have := load_cells_at junkS (done.map some) none post
    simp only [List.length_map] at this
    simp [countStages, this]
  | cons t todo ih =>
    intro done fuel hf
    obtain ⟨k, rfl⟩ : ∃ k, fuel = k + 1 := ⟨fuel - 1, by simp at hf; omega⟩
    have hi := ih (done ++ [t]) k (by simp at hf ⊢; omega)
    simp only [List.map_append, List.map_cons, List.map_nil, List.append_assoc,
      List.singleton_append, List.length_append, List.length_singleton] at hi
    have := load_cells_at junkS (done.map some) (some t) (todo.map some ++ none :: post)
    simp only [List.length_map] at this
    rw [countStages]
    simp only [List.map_cons, List.cons_append, this, hi, List.length_cons]
    congr 1
    omega

theorem pipeCalled_run (junk : Nat → Cell) (junkS : Nat → Option Cells) (alloc : Nat → Bool)
    (PATH_MAX : Nat) (fork wait : Nat → Option Nat) (pid : Nat → Nat) (argv : Cells)
    (c : CStr) (rest : List CStr) (sh : Shell)
    (hvec : IsVec argv (c :: rest)) (hpipe : tokPipe ∈ rest)
    (halloc : ∀ k, alloc k = true)
    (hcap : ∀ s ∈ segments (c :: rest), s.length < PATH_MAX)
    (hfork : ∀ i, fork i = some (pid i))
    (hfree : 2 * (c :: rest).count tokPipe ≤ freeCount sh.proc.fds) :
    ∃ (bufs : List Cells) (post : Stages) (p1 : Proc) (fds : List Nat) (kids : List Kid),
      List.Forall₂ IsVec bufs (segments (c :: rest))
      ∧ bufs.length = (c :: rest).count tokPipe + 1
      ∧ fds.length = 2 * (bufs.length - 1)
      ∧ (∀ j, j < 2 * (bufs.length - 1) →
          fdGet p1 (fds.getD j 0) = some (pipeEnd sh.proc.pipes j))
      ∧ (∀ fd ∈ fds, fdGet sh.proc fd = none)
      ∧ p1.fds.length = sh.proc.fds.length
      ∧ pipeCalled junk junkS alloc PATH_MAX fork wait argv sh
        = .ret ⟨true, ⟨sh.backgroundProcesses, sh.isWaiting, fds.foldl sysClose p1, kids⟩,
            pipeEvents fds ++ (List.range bufs.length).map (fun k => Sys.fork (pid k))
              ++ fds.map Sys.close
              ++ (List.range bufs.length).map (fun k => Sys.wait (wait k)),
            (List.range bufs.length).map
              (fun k => pipeChild junkS (bufs.map some ++ none :: post) fds bufs.length k p1),
            fds⟩ := by
  obtain ⟨bufs, post, hsplit, hall⟩ :=
    splitArgv_segments junk junkS alloc PATH_MAX argv (c :: rest) hvec halloc hcap
  have hblen : bufs.length = (c :: rest).count tokPipe + 1 := by
    rw [hall.length_eq]
    exact segmentsFrom_length _ _
  obtain ⟨apost, rfl⟩ := hvec
  have hhas := hasPipe_vec junk c rest apost
  simp only [vec] at hhas
  have hcount := countStages_spec junkS post bufs []
    ((bufs.map some ++ none :: post).length + 1) (by simp)
  simp only [List.map_nil, List.nil_append, List.length_nil, Nat.zero_add] at hcount
  obtain ⟨p1, fds, hmk, hflen, _, _, hl1, hends, hfreeNew, _⟩ :=
    makePipes_spec (bufs.length - 1) sh.proc [] [] (by rw [hblen]; simpa using hfree)
  simp only [List.nil_append] at hmk
  have hfk := forkLoop_spec junkS fork pid (bufs.map some ++ none :: post) fds bufs.length
    bufs.length 0 { sh with proc := p1 } (pipeEvents fds) [] (by intro k _; exact hfork _)
  simp only [← List.range_eq_range', List.nil_append] at hfk
  refine ⟨bufs, post, p1, fds,
    (waitAll wait bufs.length 0
      (sh.kids ++ (List.range bufs.length).map (fun k => (⟨pid k, false⟩ : Kid)))
      (pipeEvents fds ++ (List.range bufs.length).map (fun k => Sys.fork (pid k))
        ++ fds.map Sys.close)).1,
    hall, hblen, hflen, hends, hfreeNew, hl1, ?_⟩
  unfold pipeCalled
  simp only [hhas, hpipe, decide_True, Run.ret_bind, Bool.true_eq_false, if_false, hsplit,
    hcount, hmk, hfk, closeAll_eq _ _ fds bufs.length hflen]
  have hw := waitAll_trace wait bufs.length 0
    (sh.kids ++ (List.range bufs.length).map (fun k => (⟨pid k, false⟩ : Kid)))
    (pipeEvents fds ++ (List.range bufs.length).map (fun k => Sys.fork (pid k))
      ++ fds.map Sys.close)
  simp only [← List.range_eq_range'] at hw
  rw [hw]

/-! ## Claims on the pipeline splitter and executor -/

theorem forall2_isVec_tokens (bufs : List Cells) (segs : List (List CStr))
    (h : List.Forall₂ IsVec bufs segs) : bufs.map tokensOf = segs := by
  induction h with
  | nil => rfl
  | cons hb _ ih => simp [tokensOf_isVec _ _ hb, ih]

theorem forall2_isVec_self (bufs : List Cells) (segs : List (List CStr))
    (h : List.Forall₂ IsVec bufs segs) : ∀ b ∈ bufs, IsVec b (tokensOf b) := by
  induction h with
  | nil => intro b hb; simp at hb
  | cons hb _ ih =>
    intro b hmem
    simp only [List.mem_cons] at hmem
    rcases hmem with rfl | hmem
    · rw [tokensOf_isVec _ _ hb]; exact hb
    · exact ih b hmem

/-- C4: for a sentinel-terminated vector whose segments are shorter than the
stage capacity `PATH_MAX`, and when its allocations succeed, `splitArgv`
returns a sentinel-terminated stage list of (number of `|` tokens) + 1 stages,
each a sentinel-terminated vector without a `|` token, and the stages joined
with one `|` token between consecutive stages are the original vector. -/
theorem splitArgv_partitions (junk : Nat → Cell) (junkS : Nat → Option Cells)
    (alloc : Nat → Bool) (PATH_MAX : Nat) (argv : Cells) (ts : List CStr)
    (hvec : IsVec argv ts) (halloc : ∀ k, alloc k = true)
    (hcap : ∀ s ∈ segments ts, s.length < PATH_MAX) :
    ∃ (bufs : List Cells) (post : Stages),
      splitArgv junk junkS alloc PATH_MAX argv = .ret (some (bufs.map some ++ none :: post))
      ∧ stagesOf (bufs.map some ++ none :: post) = bufs
      ∧ bufs.length = ts.count tokPipe + 1
      ∧ (∀ b ∈ bufs, IsVec b (tokensOf b) ∧ tokPipe ∉ tokensOf b)
      ∧ List.intercalate [tokPipe] (bufs.map tokensOf) = ts := by
  obtain ⟨bufs, post, hsplit, hall⟩ :=
    splitArgv_segments junk junkS alloc PATH_MAX argv ts hvec halloc hcap
  have htok := forall2_isVec_tokens bufs _ hall
  refine ⟨bufs, post, hsplit, ?_, ?_, ?_, ?_⟩
  · clear hsplit hall htok
    induction bufs with
    | nil => rfl
    | cons b bufs ih => simp [stagesOf, ih]
  · rw [hall.length_eq]
    exact segmentsFrom_length ts []
  · intro b hb
    refine ⟨forall2_isVec_self bufs _ hall b hb, ?_⟩
    have hmem : tokensOf b ∈ segments ts := by
      rw [← htok]
      exact List.mem_map_of_mem tokensOf hb
    exact segmentsFrom_no_pipe ts [] (by simp) _ hmem
  · rw [htok]
    have := segmentsFrom_intercalate ts []
    simpa [segments] using this

/-- Witness for C4: `ls -l | wc` with a stage capacity of 4096 cells. -/
theorem splitArgv_partitions_witness :
    ∃ (bufs : List Cells) (post : Stages),
      splitArgv (fun _ => none) (fun _ => none) (fun _ => true) 4096
          [some ['l', 's'], some ['-', 'l'], some ['|'], some ['w', 'c'], none]
        = .ret (some (bufs.map some ++ none :: post))
      ∧ bufs.length = 2
      ∧ List.intercalate [['|']] (bufs.map tokensOf) = [['l', 's'], ['-', 'l'], ['|'], ['w', 'c']] := by
  obtain ⟨bufs, post, h1, _, h3, _, h5⟩ := splitArgv_partitions (fun _ => none)
    (fun _ => none) (fun _ => true) 4096
    [some ['l', 's'], some ['-', 'l'], some ['|'], some ['w', 'c'], none]
    [['l', 's'], ['-', 'l'], ['|'], ['w', 'c']] ⟨[], rfl⟩ (fun _ => rfl) (by decide)
  exact ⟨bufs, post, h1, by rw [h3]; decide, h5⟩

/-! ### Empty stages -/

theorem getLast?_cons_of_ne_nil {α : Type} (a : α) (l : List α) (h : l ≠ []) :
    (a :: l).getLast? = l.getLast? := by
  cases l with
  | nil => exact absurd rfl h
  | cons b l => rfl

theorem segmentsFrom_empty_iff (ts : List CStr) :
    ∀ cur : List CStr,
      (∃ s ∈ segmentsFrom cur ts, s = []) ↔
        ((cur = [] ∧ (ts = [] ∨ ts.head? = some tokPipe))
          ∨ ts.getLast? = some tokPipe ∨ hasAdjacentPipes ts = true) := by
  induction ts with
  | nil =>
    intro cur
    simp [segmentsFrom, hasAdjacentPipes]
  | cons t ts ih =>
    intro cur
    by_cases ht : t = tokPipe
    · subst ht
      have h := ih []
      simp only [segmentsFrom, if_true, List.mem_cons, exists_eq_or_imp, true_and] at h ⊢
      rw [h]
      cases ts with
      | nil => simp [hasAdjacentPipes]
      | cons b ts =>
        simp only [hasAdjacentPipes, List.head?_cons, Option.some.injEq, decide_True,
          Bool.true_and, Bool.or_eq_true, decide_eq_true_eq, reduceCtorEq, false_or,
          List.getLast?_cons_cons, or_false]
        tauto
    · have h := ih (cur ++ [t])
      simp only [segmentsFrom, ht, if_false] at h ⊢
      rw [h]
      cases ts with
      | nil => simp [hasAdjacentPipes, ht]
      | cons b ts =>
        simp [hasAdjacentPipes, ht, List.getLast?_cons_cons]

theorem load_stage (junkS : Nat → Option Cells) (bufs : List Cells) (post : Stages) (i : Nat)
    (hi : i < bufs.length) :
    load junkS (bufs.map some ++ none :: post) i = bufs[i]? := by
  rw [load_append_left junkS _ _ i (by simpa using hi)]
  simp [List.getElem?_eq_getElem hi]

theorem children_argv (junkS : Nat → Option Cells) (bufs : List Cells) (post : Stages)
    (fds : List Nat) (p1 : Proc) :
    ((List.range bufs.length).map
        (fun k => pipeChild junkS (bufs.map some ++ none :: post) fds bufs.length k p1)).map
      (fun ch => ch.argv) = bufs.map some := by
  apply List.ext_getElem
  · simp
  · intro i h1 h2
    simp only [List.length_map, List.length_range] at h1
    simp only [List.getElem_map, List.getElem_range]
    have := load_stage junkS bufs post i h1
    rw [List.getElem?_eq_getElem h1] at this
    exact this

theorem execCommand_empty (junk : Nat → Cell) (PATH_MAX : Nat) (access execv : CStr → Bool)
    (PATH_arr : Cells) (b : Cells) (p : Proc) (hb : IsVec b []) :
    execCommand junk PATH_MAX access execv PATH_arr b p = Launch.fault := by
  obtain ⟨post, rfl⟩ := hb
  simp [execCommand, load, resolvePath]

/-- C5, counterexample: on `a | | b` (two adjacent `|` tokens) `pipeCalled`
reports success, having created one child per stage; the child of stage 1 is
handed the empty stage, on which `execCommand` dereferences `NULL`. -/
theorem pipeCalled_runs_empty_stage :
    ∃ r, pipeCalled (fun _ => none) (fun _ => none) (fun _ => true) 4096
        (fun i => some (100 + i)) (fun _ => none)
        [some ['a'], some ['|'], some ['|'], some ['b'], none]
        ⟨0, false, ⟨[], [some Obj.tty, some Obj.tty, some Obj.tty, none, none, none, none], 0, 18, 1000, 1000, []⟩,
          []⟩ = .ret r
      ∧ r.ret = true
      ∧ r.children.map (fun ch => ch.argv.map tokensOf) = [some [['a']], some [], some [['b']]]
      ∧ (∀ ch ∈ r.children, ∀ b, ch.argv = some b → tokensOf b = [] →
          execCommand (fun _ => none) 4096 (fun _ => true) (fun _ => true) [none] b ch.proc
            = Launch.fault) := by
  obtain ⟨bufs, post, p1, fds, kids, hall, hblen, _, _, _, _, hrun⟩ :=
    pipeCalled_run (fun _ => none) (fun _ => none) (fun _ => true) 4096
      (fun i => some (100 + i)) (fun _ => none) (fun i => 100 + i)
      [some ['a'], some ['|'], some ['|'], some ['b'], none] ['a'] [['|'], ['|'], ['b']]
      ⟨0, false, ⟨[], [some Obj.tty, some Obj.tty, some Obj.tty, none, none, none, none], 0, 18, 1000, 1000, []⟩,
        []⟩
      ⟨[], rfl⟩ (by decide) (fun _ => rfl) (by decide) (fun _ => rfl) (by decide)
  have hseg : segments [['a'], ['|'], ['|'], ['b']] = [[['a']], [], [['b']]] := by decide
  have hself := forall2_isVec_self bufs _ hall
  have htok := forall2_isVec_tokens bufs _ hall
  rw [hseg] at htok
  refine ⟨_, hrun, rfl, ?_, ?_⟩
  · have h := children_argv (fun _ => none) bufs post fds p1
    have h2 := congrArg (List.map (Option.map tokensOf)) h
    simp only [List.map_map] at h2
    have h3 : List.map (Option.map tokensOf ∘ some) bufs = (bufs.map tokensOf).map some := by
      simp [List.map_map, Function.comp_def]
    rw [h3, htok] at h2
    simpa [Function.comp_def] using h2
  · intro ch hch b hb hempty
    have hmem : ch.argv ∈ bufs.map some := by
      rw [← children_argv (fun _ => none) bufs post fds p1]
      exact List.mem_map_of_mem (fun ch => ch.argv) hch
    rw [hb] at hmem
    simp only [List.mem_map, Option.some.injEq, exists_eq_right] at hmem
    have hv := hself b hmem
    rw [hempty] at hv
    exact execCommand_empty _ _ _ _ _ b ch.proc hv

/-- C5, amended: `pipeCalled` does not validate the vector it treats as a
pipeline.  When the allocations, `pipe` and `fork` succeed it reports success
and hands every stage of the stage list, empty or not, to a child of its own;
the stage list has an empty stage exactly when the vector starts with `|`,
ends with `|`, or has two adjacent `|` tokens. -/
theorem pipeCalled_no_validation (junk : Nat → Cell) (junkS : Nat → Option Cells)
    (alloc : Nat → Bool) (PATH_MAX : Nat) (fork wait : Nat → Option Nat) (pid : Nat → Nat)
    (argv : Cells) (c : CStr) (rest : List CStr) (sh : Shell)
    (hvec : IsVec argv (c :: rest)) (hpipe : tokPipe ∈ rest)
    (halloc : ∀ k, alloc k = true)
    (hcap : ∀ s ∈ segments (c :: rest), s.length < PATH_MAX)
    (hfork : ∀ i, fork i = some (pid i))
    (hfree : 2 * (c :: rest).count tokPipe ≤ freeCount sh.proc.fds) :
    ∃ (r : PipeRun) (bufs : List Cells),
      pipeCalled junk junkS alloc PATH_MAX fork wait argv sh = .ret r
      ∧ r.ret = true
      ∧ r.children.map (fun ch => ch.argv) = bufs.map some
      ∧ (∀ b ∈ bufs, IsVec b (tokensOf b))
      ∧ List.intercalate [tokPipe] (bufs.map tokensOf) = c :: rest
      ∧ ((∃ b ∈ bufs, tokensOf b = []) ↔ malformedPipeline (c :: rest) = true) := by
  obtain ⟨bufs, post, p1, fds, kids, hall, hblen, _, _, _, _, hrun⟩ :=
    pipeCalled_run junk junkS alloc PATH_MAX fork wait pid argv c rest sh hvec hpipe halloc
      hcap hfork hfree
  have htok := forall2_isVec_tokens bufs _ hall
  refine ⟨_, bufs, hrun, rfl, children_argv junkS bufs post fds p1,
    forall2_isVec_self bufs _ hall, ?_, ?_⟩
  · rw [htok]
    have := segmentsFrom_intercalate (c :: rest) []
    simpa [segments] using this
  · have hiff := segmentsFrom_empty_iff (c :: rest) []
    have hleft : (∃ b ∈ bufs, tokensOf b = []) ↔ (∃ s ∈ segments (c :: rest), s = []) := by
      rw [← htok]
      simp
    rw [hleft]
    unfold segments
    rw [hiff]
    simp only [malformedPipeline, List.head?_cons, true_and, reduceCtorEq, false_or,
      Option.some.injEq, Bool.or_eq_true, decide_eq_true_eq]
    tauto

/-- Witness for the amended C5: the well-formed pipeline `a | b`. -/
theorem pipeCalled_no_validation_witness :
    ∃ (r : PipeRun) (bufs : List Cells),
      pipeCalled (fun _ => none) (fun _ => none) (fun _ => true) 4096
        (fun i => some (100 + i)) (fun _ => none) [some ['a'], some ['|'], some ['b'], none]
        ⟨0, false, ⟨[], [some Obj.tty, some Obj.tty, some Obj.tty, none, none], 0, 18, 1000, 1000, []⟩, []⟩ = .ret r
      ∧ r.ret = true
      ∧ ¬ (∃ b ∈ bufs, tokensOf b = [])
      ∧ r.children.map (fun ch => ch.argv) = bufs.map some := by
  obtain ⟨r, bufs, h1, h2, h3, _, _, h6⟩ := pipeCalled_no_validation (fun _ => none)
    (fun _ => none) (fun _ => true) 4096 (fun i => some (100 + i)) (fun _ => none)
    (fun i => 100 + i) [some ['a'], some ['|'], some ['b'], none] ['a'] [['|'], ['b']]
    ⟨0, false, ⟨[], [some Obj.tty, some Obj.tty, some Obj.tty, none, none], 0, 18, 1000, 1000, []⟩, []⟩
    ⟨[], rfl⟩ (by decide) (fun _ => rfl) (by decide) (fun _ => rfl) (by decide)
  refine ⟨r, bufs, h1, h2, ?_, h3⟩
  rw [h6]
  decide

/-- C3: for a vector that `pipeCalled` treats as a pipeline, with `n` stages,
when the allocations succeed, the descriptor table has room for the pipes,
every `fork` succeeds and standard input and output are open: the shell makes
`n - 1` calls of `pipe`, then `n` calls of `fork`, then closes all
`2 (n - 1)` pipe descriptors, then makes exactly `n` calls of `wait`, and
returns true; child `i` is handed stage `i`, rebinds standard input to the read
end of pipe `i - 1` when `i > 0` and standard output to the write end of pipe
`i` when `i < n - 1`, and closes all `2 (n - 1)` pipe descriptors before it
calls `execCommand`, so that at the call its descriptors 0 and 1 are those pipe
ends and no pipe descriptor is open. -/
theorem pipeCalled_wires_pipeline (junk : Nat → Cell) (junkS : Nat → Option Cells)
    (alloc : Nat → Bool) (PATH_MAX : Nat) (fork wait : Nat → Option Nat) (pid : Nat → Nat)
    (argv : Cells) (c : CStr) (rest : List CStr) (sh : Shell)
    (hvec : IsVec argv (c :: rest)) (hpipe : tokPipe ∈ rest)
    (halloc : ∀ k, alloc k = true)
    (hcap : ∀ s ∈ segments (c :: rest), s.length < PATH_MAX)
    (hfork : ∀ i, fork i = some (pid i))
    (hfree : 2 * (c :: rest).count tokPipe ≤ freeCount sh.proc.fds)
    (hin : fdGet sh.proc STDIN_FILENO ≠ none) (hout : fdGet sh.proc STDOUT_FILENO ≠ none) :
    ∃ (r : PipeRun) (bufs : List Cells),
      pipeCalled junk junkS alloc PATH_MAX fork wait argv sh = .ret r
      ∧ List.Forall₂ IsVec bufs (segments (c :: rest))
      ∧ 2 ≤ bufs.length
      ∧ r.ret = true
      ∧ r.pipefds.length = 2 * (bufs.length - 1)
      ∧ r.trace = pipeEvents r.pipefds
          ++ (List.range bufs.length).map (fun k => Sys.fork (pid k))
          ++ r.pipefds.map Sys.close
          ++ (List.range bufs.length).map (fun k => Sys.wait (wait k))
      ∧ (∀ fd ∈ r.pipefds, fdGet r.shell.proc fd = none)
      ∧ r.children.length = bufs.length
      ∧ (∀ i, i < bufs.length → ∃ ch, r.children[i]? = some ch
          ∧ ch.stage = i
          ∧ ch.argv = bufs[i]?
          ∧ ch.trace = childCalls r.pipefds bufs.length i
          ∧ (0 < i → fdGet ch.proc STDIN_FILENO = some (Obj.pipeRd (sh.proc.pipes + (i - 1))))
          ∧ (i < bufs.length - 1 →
              fdGet ch.proc STDOUT_FILENO = some (Obj.pipeWr (sh.proc.pipes + i)))
          ∧ (∀ fd ∈ r.pipefds, fdGet ch.proc fd = none)) := by
  obtain ⟨bufs, post, p1, fds, kids, hall, hblen, hflen, hends, hfreeNew, hl1, hrun⟩ :=
    pipeCalled_run junk junkS alloc PATH_MAX fork wait pid argv c rest sh hvec hpipe halloc
      hcap hfork hfree
  have hn : 2 ≤ bufs.length := by
    rw [hblen]
    have : 0 < (c :: rest).count tokPipe :=
      List.count_pos_iff.mpr (List.mem_cons_of_mem c hpipe)
    omega
  have h0 : STDIN_FILENO ∉ fds := fun hmem => hin (hfreeNew _ hmem)
  have h1 : STDOUT_FILENO ∉ fds := fun hmem => hout (hfreeNew _ hmem)
  have hlen2 : 2 ≤ p1.fds.length := by
    rw [hl1]
    by_contra hlt
    apply hout
    simp only [fdGet, STDOUT_FILENO]
    rw [dif_neg (by omega)]
  refine ⟨_, bufs, hrun, hall, hn, rfl, hflen, rfl, ?_, by simp, ?_⟩
  · intro fd hfd
    simp only [fdGet_foldl_close]
    simp only [] at hfd
    simp [hfd]
  · intro i hi
    obtain ⟨hs, ha, ht, hi0, hi1, hcl⟩ := pipeChild_spec junkS (bufs.map some ++ none :: post)
      fds bufs.length i p1 sh.proc.pipes hflen hi hends h0 h1 hlen2
    refine ⟨pipeChild junkS (bufs.map some ++ none :: post) fds bufs.length i p1, ?_, hs, ?_,
      ht, hi0, hi1, hcl⟩
    · simp [List.getElem?_map, List.getElem?_range hi]
    · rw [ha, load_stage junkS bufs post i hi]

/-- Witness for C3: the pipeline `a | b | c` in a shell whose descriptors 0, 1, 2 are open. -/
theorem pipeCalled_wires_pipeline_witness :
    ∃ (r : PipeRun),
      pipeCalled (fun _ => none) (fun _ => none) (fun _ => true) 4096
        (fun i => some (100 + i)) (fun _ => none)
        [some ['a'], some ['|'], some ['b'], some ['|'], some ['c'], none]
        ⟨0, false, ⟨[], [some Obj.tty, some Obj.tty, some Obj.tty, none, none, none, none], 0, 18, 1000, 1000, []⟩,
          []⟩ = .ret r
      ∧ r.ret = true ∧ r.pipefds.length = 4 ∧ r.children.length = 3 := by
  obtain ⟨r, bufs, h1, h2, _, h4, h5, _, _, h8, _⟩ := pipeCalled_wires_pipeline (fun _ => none)
    (fun _ => none) (fun _ => true) 4096 (fun i => some (100 + i)) (fun _ => none)
    (fun i => 100 + i) [some ['a'], some ['|'], some ['b'], some ['|'], some ['c'], none]
    ['a'] [['|'], ['b'], ['|'], ['c']]
    ⟨0, false, ⟨[], [some Obj.tty, some Obj.tty, some Obj.tty, none, none, none, none], 0, 18, 1000, 1000, []⟩, []⟩
    ⟨[], rfl⟩ (by decide) (fun _ => rfl) (by decide) (fun _ => rfl) (by decide) (by decide)
    (by decide)
  have hlen : bufs.length = 3 := by
    rw [h2.length_eq]
    decide
  exact ⟨r, h1, h4, by rw [h5, hlen], by rw [h8, hlen]⟩

/-! ## The job counter -/

theorem bgCount_append (a b : List Kid) : bgCount (a ++ b) = bgCount a + bgCount b := by
  simp [bgCount, List.filter_append]

theorem bgCount_foreground (kids new : List Kid) (h : ∀ k ∈ new, k.background = false) :
    bgCount (kids ++ new) = bgCount kids := by
  rw [bgCount_append]
  have : bgCount new = 0 := by
    simp only [bgCount, List.length_eq_zero, List.filter_eq_nil_iff]
    intro k hk
    simp [h k hk]
  omega

theorem notBackground_append (kids new : List Kid) (pid : Nat)
    (h : NotBackground kids pid) (hnew : ∀ k ∈ new, k.background = false) :
    NotBackground (kids ++ new) pid := by
  intro k hk hb
  simp only [List.mem_append] at hk
  rcases hk with hk | hk
  · exact h k hk hb
  · rw [hnew k hk] at hb
    exact absurd hb (by simp)

theorem bgCount_sysWait_of_notBackground (kids : List Kid) (w : Option Nat)
    (h : ∀ pid, w = some pid → NotBackground kids pid) :
    bgCount (sysWait kids w) = bgCount kids := by
  cases w with
  | none => rfl
  | some pid =>
    have hn := h pid rfl
    simp only [sysWait, bgCount, List.filter_filter]
    congr 1
    apply List.filter_congr
    intro k hk
    by_cases hb : k.background = true
    · have := hn k hk hb
      simp [hb, this]
    · simp [hb]

theorem notBackground_sysWait (kids : List Kid) (w : Option Nat) (pid : Nat)
    (h : NotBackground kids pid) : NotBackground (sysWait kids w) pid := by
  cases w with
  | none => exact h
  | some q =>
    intro k hk hb
    simp only [sysWait, List.mem_filter] at hk
    exact h k hk.1 hb

theorem bgCount_foldl_sysWait (waits : List (Option Nat)) :
    ∀ kids : List Kid, (∀ w ∈ waits, ∀ pid, w = some pid → NotBackground kids pid) →
      bgCount (waits.foldl sysWait kids) = bgCount kids := by
  induction waits with
  | nil => intro kids _; rfl
  | cons w waits ih =>
    intro kids h
    simp only [List.foldl_cons]
    rw [ih (sysWait kids w), bgCount_sysWait_of_notBackground kids w (h w (by simp))]
    intro w' hw' pid hpid
    exact notBackground_sysWait kids w pid (h w' (by simp [hw']) pid hpid)

/-! ### callFromPATH on any vector -/

theorem callFromPATH_shell (junk : Nat → Cell) (fork wait : Option Nat) (argv : Cells)
    (sh : Shell) (r : CallRun) (h : callFromPATH junk fork wait argv sh = .ret r) :
    (r.shell.backgroundProcesses = sh.backgroundProcesses
      ∧ (r.shell.kids = sh.kids
          ∨ ∃ pid, fork = some pid ∧ r.shell.kids = sysWait (sh.kids ++ [⟨pid, false⟩]) wait))
    ∨ (r.shell.backgroundProcesses = sh.backgroundProcesses + 1
      ∧ ((fork = none ∧ r.shell.kids = sh.kids)
          ∨ ∃ pid, fork = some pid ∧ r.shell.kids = sh.kids ++ [⟨pid, true⟩])) := by
  unfold callFromPATH at h
  cases hn : getNumArgs junk argv with
  | ret n =>
    simp only [hn, Run.ret_bind] at h
    cases hl : load junk argv ((n + (SIZE_MOD - 1)) % SIZE_MOD) with
    | none => simp [hl] at h
    | some t =>
      simp only [hl] at h
      by_cases ht : t = tokAmp
      · simp only [ht, decide_True, if_true, hn, Run.ret_bind] at h
        cases hs : store argv ((n + (SIZE_MOD - 1)) % SIZE_MOD) none with
        | none => simp [hs] at h
        | some argv1 =>
          simp only [hs, Run.ret_bind] at h
          cases fork with
          | none =>
            simp only [Run.ret.injEq] at h
            subst h
            exact Or.inr ⟨rfl, Or.inl ⟨rfl, rfl⟩⟩
          | some pid =>
            simp only [Run.ret.injEq] at h
            subst h
            exact Or.inr ⟨rfl, Or.inr ⟨pid, rfl, rfl⟩⟩
      · simp only [ht, decide_False, Bool.false_eq_true, if_false, Run.ret_bind] at h
        cases fork with
        | none =>
          simp only [Run.ret.injEq] at h
          subst h
          exact Or.inl ⟨rfl, Or.inl rfl⟩
        | some pid =>
          simp only [Run.ret.injEq] at h
          subst h
          exact Or.inl ⟨rfl, Or.inr ⟨pid, rfl, rfl⟩⟩
  | exit s => simp [hn] at h
  | fault => simp [hn] at h
  | timeout => simp [hn] at h

/-! ### pipeCalled on any vector -/

theorem forkLoop_shell (junkS : Nat → Option Cells) (fork : Nat → Option Nat)
    (argvs : Stages) (fds : List Nat) (numArgv : Nat) :
    ∀ (n i : Nat) (sh : Shell) (tr : List Sys) (cs : List Child),
      (forkLoop junkS fork argvs fds numArgv n i sh tr cs).2.1.backgroundProcesses
        = sh.backgroundProcesses
      ∧ ∃ new, (∀ k ∈ new, k.background = false)
        ∧ (forkLoop junkS fork argvs fds numArgv n i sh tr cs).2.1.kids = sh.kids ++ new := by
  intro n
  induction n with
  | zero => intro i sh tr cs; exact ⟨rfl, [], by simp, by simp [forkLoop]⟩
  | succ n ih =>
    intro i sh tr cs
    rw [forkLoop]
    cases hf : fork i with
    | none => exact ⟨rfl, [], by simp, by simp⟩
    | some pid =>
      simp only
      obtain ⟨h1, new, h2, h3⟩ := ih (i + 1) { sh with kids := sh.kids ++ [⟨pid, false⟩] }
        (tr ++ [Sys.fork pid]) (cs ++ [pipeChild junkS argvs fds numArgv i sh.proc])
      refine ⟨h1, ⟨pid, false⟩ :: new, ?_, ?_⟩
      · intro k hk
        simp only [List.mem_cons] at hk
        rcases hk with rfl | hk
        · rfl
        · exact h2 k hk
      · rw [h3]
        simp

theorem waitAll_kids (wait : Nat → Option Nat) :
    ∀ (n i : Nat) (kids : List Kid) (tr : List Sys),
      ∃ waits : List (Option Nat), (waitAll wait n i kids tr).1 = waits.foldl sysWait kids
        ∧ ∀ w ∈ waits, ∃ j, w = wait j := by
  intro n
  induction n with
  | zero => intro i kids tr; exact ⟨[], rfl, by simp⟩
  | succ n ih =>
    intro i kids tr
    obtain ⟨waits, h1, h2⟩ := ih (i + 1) (sysWait kids (wait i)) (tr ++ [Sys.wait (wait i)])
    refine ⟨wait i :: waits, by rw [waitAll, h1]; rfl, ?_⟩
    intro w hw
    simp only [List.mem_cons] at hw
    rcases hw with rfl | hw
    · exact ⟨i, rfl⟩
    · exact h2 w hw

theorem pipeCalled_shell (junk : Nat → Cell) (junkS : Nat → Option Cells) (alloc : Nat → Bool)
    (PATH_MAX : Nat) (fork wait : Nat → Option Nat) (argv : Cells) (sh : Shell) (r : PipeRun)
    (h : pipeCalled junk junkS alloc PATH_MAX fork wait argv sh = .ret r) :
    r.shell.backgroundProcesses = sh.backgroundProcesses
    ∧ ∃ (new : List Kid) (waits : List (Option Nat)),
        (∀ k ∈ new, k.background = false)
        ∧ r.shell.kids = waits.foldl sysWait (sh.kids ++ new)
        ∧ ∀ w ∈ waits, ∃ j, w = wait j := by
  have triv : ∀ p : Proc, (sh.backgroundProcesses = sh.backgroundProcesses
      ∧ ∃ (new : List Kid) (waits : List (Option Nat)),
        (∀ k ∈ new, k.background = false)
        ∧ sh.kids = waits.foldl sysWait (sh.kids ++ new)
        ∧ ∀ w ∈ waits, ∃ j, w = wait j) :=
    fun _ => ⟨rfl, [], [], by simp, by simp, by simp⟩
  unfold pipeCalled at h
  cases hh : hasPipe junk argv with
  | ret found =>
    simp only [hh, Run.ret_bind] at h
    cases found with
    | false =>
      simp only [if_true, Run.ret.injEq] at h
      subst h
      exact triv sh.proc
    | true =>
      simp only [Bool.true_eq_false, if_false] at h
      cases hs : splitArgv junk junkS alloc PATH_MAX argv with
      | ret res =>
        simp only [hs, Run.ret_bind] at h
        cases res with
        | none =>
          simp only [Run.ret.injEq] at h
          subst h
          exact triv sh.proc
        | some argvs =>
          simp only at h
          cases hc : countStages junkS argvs (argvs.length + 1) 0 with
          | ret numArgv =>
            simp only [hc, Run.ret_bind] at h
            rcases hr1 : makePipes (numArgv - 1) sh.proc [] [] with ⟨ok1, p1, fds, tr1⟩
            simp only [hr1] at h
            cases ok1 with
            | false =>
              simp only [if_true, Run.ret.injEq] at h
              subst h
              exact triv sh.proc
            | true =>
              simp only [Bool.true_eq_false, if_false] at h
              obtain ⟨hbp, new, hnew, hkids⟩ := forkLoop_shell junkS fork argvs fds numArgv
                numArgv 0 { sh with proc := p1 } tr1 []
              rcases hr2 : forkLoop junkS fork argvs fds numArgv numArgv 0
                { sh with proc := p1 } tr1 [] with ⟨ok2, sh2, tr2, cs⟩
              simp only [hr2] at h hbp hkids
              cases ok2 with
              | false =>
                simp only [if_true, Run.ret.injEq] at h
                subst h
                exact ⟨hbp, new, [], hnew, by simpa using hkids, by simp⟩
              | true =>
                simp only [Bool.true_eq_false, if_false, Run.ret.injEq] at h
                subst h
                obtain ⟨waits, hw1, hw2⟩ := waitAll_kids wait numArgv 0 sh2.kids
                  (closeAll (sh2.proc, tr2) fds numArgv).2
                rw [hkids] at hw1
                exact ⟨hbp, new, waits, hnew, by simpa [hkids] using hw1, hw2⟩
          | exit s => simp [hc] at h
          | fault => simp [hc] at h
          | timeout => simp [hc] at h
      | exit s => simp [hs] at h
      | fault => simp [hs] at h
      | timeout => simp [hs] at h
  | exit s => simp [hh] at h
  | fault => simp [hh] at h
  | timeout => simp [hh] at h

/-! ### handleSIGCHLD -/

theorem handleSIGCHLD_counter :
    ∀ (reaped : List Nat) (sh : Shell),
      (handleSIGCHLD reaped sh).backgroundProcesses
        = sh.backgroundProcesses - reaped.length := by
  intro reaped
  induction reaped with
  | nil => intro sh; simp [handleSIGCHLD]
  | cons pid more ih =>
    intro sh
    rw [handleSIGCHLD]
    by_cases hpos : sh.backgroundProcesses > 0
    · simp only [hpos, if_true, ih, List.length_cons]
      omega
    · simp only [hpos, if_false, List.length_cons]
      omega

theorem bgCount_reap_background (kids : List Kid) (pid : Nat) (k : Kid)
    (h : kids.filter (fun x => x.pid == pid) = [k]) (hb : k.background = true) :
    bgCount (sysWait kids (some pid)) + 1 = bgCount kids := by
  have hsplit := List.length_eq_length_filter_add (l := kids.filter (fun x => x.background))
    (fun x => x.pid != pid)
  have h1 : (kids.filter (fun x => x.background)).filter (fun x => x.pid != pid)
      = (kids.filter (fun x => x.pid != pid)).filter (fun x => x.background) := by
    simp only [List.filter_filter]
    apply List.filter_congr
    intro x _
    exact Bool.and_comm _ _
  have h2 : (kids.filter (fun x => x.background)).filter (fun x => !(x.pid != pid))
      = [k] := by
    have h3 : (kids.filter (fun x => x.background)).filter (fun x => !(x.pid != pid))
        = (kids.filter (fun x => x.pid == pid)).filter (fun x => x.background) := by
      simp only [List.filter_filter]
      apply List.filter_congr
      intro x _
      cases x.background <;> cases hx : (x.pid == pid) <;> simp [bne, hx]
    rw [h3, h]
    simp [hb]
  rw [h1, h2] at hsplit
  simp only [bgCount, sysWait]
  simp only [List.length_singleton] at hsplit
  omega

theorem filter_pid_sysWait (kids : List Kid) (pid q : Nat) (hne : q ≠ pid) :
    (sysWait kids (some pid)).filter (fun x => x.pid == q)
      = kids.filter (fun x => x.pid == q) := by
  simp only [sysWait, List.filter_filter]
  apply List.filter_congr
  intro x _
  by_cases hx : x.pid = q
  · simp [hx, hne]
  · simp [hx]

theorem handleSIGCHLD_exact :
    ∀ (reaped : List Nat) (sh : Shell),
      sh.backgroundProcesses = bgCount sh.kids → reaped.Nodup →
      (∀ pid ∈ reaped, ∃ k, sh.kids.filter (fun x => x.pid == pid) = [k]
        ∧ k.background = true) →
      (handleSIGCHLD reaped sh).backgroundProcesses
        = bgCount (handleSIGCHLD reaped sh).kids := by
  intro reaped
  induction reaped with
  | nil => intro sh h _ _; simpa [handleSIGCHLD] using h
  | cons pid more ih =>
    intro sh hinv hnd hall
    obtain ⟨k, hk, hb⟩ := hall pid (by simp)
    have hcount := bgCount_reap_background sh.kids pid k hk hb
    have hpos : sh.backgroundProcesses > 0 := by omega
    rw [handleSIGCHLD]
    simp only [hpos, if_true]
    apply ih
    · simp only
      omega
    · exact (List.nodup_cons.mp hnd).2
    · intro q hq
      have hne : q ≠ pid := by
        rintro rfl
        exact (List.nodup_cons.mp hnd).1 hq
      simp only
      rw [filter_pid_sysWait sh.kids pid q hne]
      exact hall q (by simp [hq])

/-! ### One step and a run -/

theorem step_exact (junk : Nat → Cell) (junkS : Nat → Option Cells) (alloc : Nat → Bool)
    (PATH_MAX : Nat) (s : Step) (sh sh1 : Shell)
    (hinv : sh.backgroundProcesses = bgCount sh.kids) (hgood : goodStep junk s sh)
    (hstep : step junk junkS alloc PATH_MAX s sh = .ret sh1) :
    sh1.backgroundProcesses = bgCount sh1.kids := by
  cases s with
  | launch argv fork wait =>
    simp only [step] at hstep
    cases hc : callFromPATH junk fork wait argv sh with
    | ret r =>
      rw [hc] at hstep
      simp only [Run.map_ret, Run.ret.injEq] at hstep
      subst hstep
      obtain ⟨hg1, hg2⟩ := hgood
      rcases callFromPATH_shell junk fork wait argv sh r hc with
        ⟨hbp, hkids | ⟨pid, _, hkids⟩⟩ | ⟨hbp, ⟨hf, _⟩ | ⟨pid, _, hkids⟩⟩
      · rw [hbp, hkids]; exact hinv
      · rw [hbp, hkids, bgCount_sysWait_of_notBackground, bgCount_foreground _ _ (by simp)]
        · exact hinv
        · intro q hq
          exact notBackground_append _ _ _ (hg2 q hq) (by simp)
      · exact absurd hf (hg1 r hc (by omega))
      · rw [hbp, hkids, bgCount_append, hinv]
        simp [bgCount]
    | exit st => rw [hc] at hstep; simp [Run.map, Run.bind] at hstep
    | fault => rw [hc] at hstep; simp [Run.map, Run.bind] at hstep
    | timeout => rw [hc] at hstep; simp [Run.map, Run.bind] at hstep
  | pipeline argv fork wait =>
    simp only [step] at hstep
    cases hc : pipeCalled junk junkS alloc PATH_MAX fork wait argv sh with
    | ret r =>
      rw [hc] at hstep
      simp only [Run.map_ret, Run.ret.injEq] at hstep
      subst hstep
      obtain ⟨hbp, new, waits, hnew, hkids, hw⟩ :=
        pipeCalled_shell junk junkS alloc PATH_MAX fork wait argv sh r hc
      rw [hbp, hkids, bgCount_foldl_sysWait, bgCount_foreground _ _ hnew]
      · exact hinv
      · intro w hwm q hq
        obtain ⟨j, hj⟩ := hw w hwm
        exact notBackground_append _ _ _ (hgood j q (by rw [← hj, hq])) hnew
    | exit st => rw [hc] at hstep; simp [Run.map, Run.bind] at hstep
    | fault => rw [hc] at hstep; simp [Run.map, Run.bind] at hstep
    | timeout => rw [hc] at hstep; simp [Run.map, Run.bind] at hstep
  | sigchld reaped =>
    simp only [step, Run.ret.injEq] at hstep
    subst hstep
    exact handleSIGCHLD_exact reaped sh hinv hgood.1 hgood.2

theorem runSteps_exact (junk : Nat → Cell) (junkS : Nat → Option Cells) (alloc : Nat → Bool)
    (PATH_MAX : Nat) :
    ∀ (steps : List Step) (sh sh1 : Shell),
      sh.backgroundProcesses = bgCount sh.kids →
      GoodRun junk junkS alloc PATH_MAX steps sh →
      runSteps junk junkS alloc PATH_MAX steps sh = .ret sh1 →
      sh1.backgroundProcesses = bgCount sh1.kids := by
  intro steps
  induction steps with
  | nil =>
    intro sh sh1 hinv _ hrun
    simp only [runSteps, Run.ret.injEq] at hrun
    subst hrun
    exact hinv
  | cons s rest ih =>
    intro sh sh1 hinv hgood hrun
    simp only [runSteps] at hrun
    cases hs : step junk junkS alloc PATH_MAX s sh with
    | ret sh2 =>
      rw [hs] at hrun
      exact ih sh2 sh1 (step_exact junk junkS alloc PATH_MAX s sh sh2 hinv hgood.1 hs)
        (hgood.2 sh2 hs) hrun
    | exit st => rw [hs] at hrun; simp at hrun
    | fault => rw [hs] at hrun; simp at hrun
    | timeout => rw [hs] at hrun; simp at hrun

/-- C7, counterexample: from the initial state (counter 0, no children),
(1) a background launch whose process creation fails leaves the counter at 1
with no child at all; (2) after a background launch (child 10) and a
foreground launch (child 11) whose `wait` returns the background child 10, the
counter is 1 while no background child remains; (3) `handleSIGCHLD` run on the
foreground child 11 then lowers the counter although that child was never a
background child. -/
theorem counter_not_exact :
    (runSteps (fun _ => none) (fun _ => none) (fun _ => true) 4096
        [Step.launch [some ['a'], some ['&'], none] none none]
        ⟨0, false, ⟨[], [some Obj.tty, some Obj.tty, some Obj.tty], 0, 18, 1000, 1000, []⟩, []⟩).map
      (fun sh => (sh.backgroundProcesses, bgCount sh.kids)) = .ret (1, 0)
    ∧ (runSteps (fun _ => none) (fun _ => none) (fun _ => true) 4096
        [Step.launch [some ['a'], some ['&'], none] (some 10) none,
         Step.launch [some ['b'], none] (some 11) (some 10)]
        ⟨0, false, ⟨[], [some Obj.tty, some Obj.tty, some Obj.tty], 0, 18, 1000, 1000, []⟩, []⟩).map
      (fun sh => (sh.backgroundProcesses, sh.kids)) = .ret (1, [⟨11, false⟩])
    ∧ (handleSIGCHLD [11]
        ⟨1, false, ⟨[], [some Obj.tty, some Obj.tty, some Obj.tty], 0, 18, 1000, 1000, []⟩, [⟨11, false⟩]⟩)
      = ⟨0, false, ⟨[], [some Obj.tty, some Obj.tty, some Obj.tty], 0, 18, 1000, 1000, []⟩, []⟩ := by
  refine ⟨by decide, by decide, by decide⟩

/-- C7, amended: along every run of steps (launches through `callFromPATH`,
pipelines through `pipeCalled`, runs of `handleSIGCHLD`) in which every launch
that counts a background job did create its process, no `wait` of the main
flow reaps a background child, and `handleSIGCHLD` reaps each child once and
only background children, `backgroundProcesses` stays equal to the number of
background children created and not yet reaped.  In any state whatever,
`handleSIGCHLD` lowers the counter once for each child it reaps while the
counter is positive, whether that child is a background child or not. -/
theorem counter_tracks_background (junk : Nat → Cell) (junkS : Nat → Option Cells)
    (alloc : Nat → Bool) (PATH_MAX : Nat) (steps : List Step) (sh sh1 : Shell)
    (hinv : sh.backgroundProcesses = bgCount sh.kids)
    (hgood : GoodRun junk junkS alloc PATH_MAX steps sh)
    (hrun : runSteps junk junkS alloc PATH_MAX steps sh = .ret sh1) :
    sh1.backgroundProcesses = bgCount sh1.kids
    ∧ (∀ (reaped : List Nat) (s : Shell),
        (handleSIGCHLD reaped s).backgroundProcesses
          = s.backgroundProcesses - reaped.length) :=
  ⟨runSteps_exact junk junkS alloc PATH_MAX steps sh sh1 hinv hgood hrun,
    handleSIGCHLD_counter⟩

/-- Witness for the amended C7: `a &` creates the background child 10, which
`handleSIGCHLD` then reaps; the counter goes 0, 1, 0 and is exact at the end. -/
theorem counter_tracks_background_witness :
    runSteps (fun _ => none) (fun _ => none) (fun _ => true) 4096
        [Step.launch [some ['a'], some ['&'], none] (some 10) none, Step.sigchld [10]]
        ⟨0, false, ⟨[], [some Obj.tty, some Obj.tty, some Obj.tty], 0, 18, 1000, 1000, []⟩, []⟩
      = .ret ⟨0, false, ⟨[], [some Obj.tty, some Obj.tty, some Obj.tty], 0, 18, 1000, 1000, []⟩, []⟩
    ∧ (⟨0, false, ⟨[], [some Obj.tty, some Obj.tty, some Obj.tty], 0, 18, 1000, 1000, []⟩, []⟩ : Shell).backgroundProcesses
      = bgCount (⟨0, false, ⟨[], [some Obj.tty, some Obj.tty, some Obj.tty], 0, 18, 1000, 1000, []⟩, []⟩ : Shell).kids := by
  have hstep : step (fun _ => none) (fun _ => none) (fun _ => true) 4096
      (Step.launch [some ['a'], some ['&'], none] (some 10) none)
      ⟨0, false, ⟨[], [some Obj.tty, some Obj.tty, some Obj.tty], 0, 18, 1000, 1000, []⟩, []⟩
      = .ret ⟨1, false, ⟨[], [some Obj.tty, some Obj.tty, some Obj.tty], 0, 18, 1000, 1000, []⟩, [⟨10, true⟩]⟩ := by
    decide
  refine ⟨by decide, ?_⟩
  exact (counter_tracks_background (fun _ => none) (fun _ => none) (fun _ => true) 4096
    [Step.launch [some ['a'], some ['&'], none] (some 10) none, Step.sigchld [10]]
    ⟨0, false, ⟨[], [some Obj.tty, some Obj.tty, some Obj.tty], 0, 18, 1000, 1000, []⟩, []⟩
    ⟨0, false, ⟨[], [some Obj.tty, some Obj.tty, some Obj.tty], 0, 18, 1000, 1000, []⟩, []⟩
    (by decide)
    ⟨⟨fun _ _ _ => by simp, fun _ h => absurd h (by simp)⟩,
      fun sh1 h1 => by
        rw [hstep] at h1
        injection h1 with h1
        subst h1
        exact ⟨⟨by decide, fun pid hp => by
          simp only [List.mem_singleton] at hp
          subst hp
          exact ⟨⟨10, true⟩, by decide, rfl⟩⟩, fun _ _ => trivial⟩⟩
    (by decide)).1

end MannyShell
